import Mathlib

/-!
Digit-Classifier-NN: the drawing-to-feature pipeline and the inference pass.

A shallow embedding of `src/main.c` (with the constants of `src/main.h`) and the properties
of it that the specification states.

Modelling conventions.

* `uint16_t` and `uint32_t` values are natural numbers.  Every claim keeps coordinates at
  most `SCREEN_WIDTH = 240` and `SCREEN_HEIGHT = 320`, so no `uint16_t` loop counter wraps;
  the bit operations of the bitmap never leave 32 bits (`map_coordinates_word_lt`).
* `pixel_map[SCREEN_HEIGHT/32][SCREEN_WIDTH]` is a function from row and column to the stored
  word; the C array starts zeroed (`pixel_map_init`).
* A `for` loop over `lo .. hi` is a left fold over the list of its counter values, the loop
  variables being the state of the fold.
* In `create_nn_input` every `double` is a multiple of `1/16` below `2^21`, so the C
  arithmetic is exact there and the values are exact rationals.
* `classify` has two embeddings.  `classify_on` is total and runs on an arbitrary `double`
  arithmetic `DoubleOps`: the rounding of sums and products and the result of converting an
  out-of-range `double` to `uint16_t` are whatever the platform yields.  `classify` takes
  the weights as exact rationals and is `none` where a conversion to `uint16_t` is undefined
  in C.  They agree wherever the latter is defined (`classify_on_exact`).
* Hardware services (`lp_io_read_pin`, the touch controller, the LCD) are inputs.
-/

namespace DigitClassifier

/-! ## Constants of `main.h` -/

def SCREEN_WIDTH : Nat := 240

def SCREEN_HEIGHT : Nat := 320

def NUM_INPUT_UNITS : Nat := 256

def NUM_HIDDEN_UNITS : Nat := 10

def NUM_OUTPUT_UNITS : Nat := 10

/-! ## Trigger debouncer: `sw2_pressed` -/

/-- Debounce states (`main.c`, lines 9-14). -/
inductive DEBOUNCE_STATES where
  | DEBOUNCE_ONE
  | DEBOUNCE_1ST_ZERO
  | DEBOUNCE_2ND_ZERO
  | DEBOUNCE_PRESSED
deriving DecidableEq, Repr

open DEBOUNCE_STATES

/-- Initial value of the `static` state variable of `sw2_pressed` (line 95). -/
def sw2_initial_state : DEBOUNCE_STATES := DEBOUNCE_ONE

/-- The `switch` of `sw2_pressed` (lines 101-123): the state after one sample of the pin.
The `default` branch is unreachable, the enumeration having four values. -/
def sw2_next_state (state : DEBOUNCE_STATES) (pin_logic_level : Bool) : DEBOUNCE_STATES :=
  match state with
  | DEBOUNCE_ONE => if pin_logic_level then DEBOUNCE_ONE else DEBOUNCE_1ST_ZERO
  | DEBOUNCE_1ST_ZERO => if pin_logic_level then DEBOUNCE_ONE else DEBOUNCE_2ND_ZERO
  | DEBOUNCE_2ND_ZERO => if pin_logic_level then DEBOUNCE_ONE else DEBOUNCE_PRESSED
  | DEBOUNCE_PRESSED => if pin_logic_level then DEBOUNCE_ONE else DEBOUNCE_PRESSED

/-- One call of `sw2_pressed` (lines 94-127): the static state before the call and the pin
level read by `lp_io_read_pin` give the state after the call and the value returned. -/
def sw2_pressed (state : DEBOUNCE_STATES) (pin_logic_level : Bool) : DEBOUNCE_STATES × Bool :=
  let state := sw2_next_state state pin_logic_level
  if state = DEBOUNCE_2ND_ZERO then (state, true) else (state, false)

/-- Successive calls of `sw2_pressed`, one per sampled pin level; the values returned. -/
def sw2_run : DEBOUNCE_STATES → List Bool → List Bool
  | _, [] => []
  | state, pin :: pins => (sw2_pressed state pin).2 :: sw2_run (sw2_pressed state pin).1 pins

/-- The static state after successive calls of `sw2_pressed`. -/
def sw2_state_after (state : DEBOUNCE_STATES) (pins : List Bool) : DEBOUNCE_STATES :=
  pins.foldl (fun s p => (sw2_pressed s p).1) state

/-! ## Bitmap store: `pixel_map`, `map_coordinates`, `read_from_map` -/

/-- The array `uint32_t pixel_map[SCREEN_HEIGHT/32][SCREEN_WIDTH]` (line 23): row, then
column. -/
abbrev PixelMap := Nat → Nat → Nat

/-- The zero-initialised global array. -/
def pixel_map_init : PixelMap := fun _ _ => 0

/-- Line 134: `pixel_map[y/32][x] |= 1 << (y % 32)`. -/
def map_coordinates (pixel_map : PixelMap) (x y : Nat) : PixelMap :=
  fun r c => if r = y / 32 ∧ c = x then pixel_map r c ||| 1 <<< (y % 32) else pixel_map r c

/-- Line 142: `return pixel_map[y/32][x] & 1 << (y % 32)`, converted to `bool`. -/
def read_from_map (pixel_map : PixelMap) (x y : Nat) : Bool :=
  pixel_map (y / 32) x &&& 1 <<< (y % 32) != 0

/-! ## Bounding-box extractor: `find_boundaries` -/

/-- The four values `find_boundaries` writes through its pointer arguments. -/
structure Bounds where
  upper_bound : Nat
  lower_bound : Nat
  left_bound : Nat
  right_bound : Nat
deriving DecidableEq, Repr

/-- Body of the inner loop of `find_boundaries` (lines 171-176), on the four running
values `upper_temp`, `lower_temp`, `left_temp`, `right_temp`. -/
def find_boundaries_body (pixel_map : PixelMap) (x y : Nat) (t : Bounds) : Bounds :=
  if read_from_map pixel_map x y then
    { upper_bound := if y < t.upper_bound then y else t.upper_bound
      lower_bound := if y > t.lower_bound then y else t.lower_bound
      left_bound := if x < t.left_bound then x else t.left_bound
      right_bound := if x > t.right_bound then x else t.right_bound }
  else t

/-- Lines 164-184 of `main.c`. -/
def find_boundaries (pixel_map : PixelMap) : Bounds :=
  (List.range SCREEN_WIDTH).foldl
    (fun t x =>
      (List.range SCREEN_HEIGHT).foldl (fun t y => find_boundaries_body pixel_map x y t) t)
    { upper_bound := SCREEN_HEIGHT, lower_bound := 0, left_bound := SCREEN_WIDTH,
      right_bound := 0 }

/-- The scan of `find_boundaries` over an explicit list of cells `(x, y)`. -/
def scan_cells (pixel_map : PixelMap) (cells : List (Nat × Nat)) (t : Bounds) : Bounds :=
  cells.foldl (fun t p => find_boundaries_body pixel_map p.1 p.2 t) t

/-- The cells in the order the two nested loops visit them. -/
def all_cells (w h : Nat) : List (Nat × Nat) :=
  (List.range w).flatMap fun x => (List.range h).map fun y => (x, y)

/-- What a scan from the running values `t` to the values `r` has established. -/
structure ScanSpec (pm : PixelMap) (cs : List (Nat × Nat)) (t r : Bounds) : Prop where
  upper_le : ∀ p ∈ cs, read_from_map pm p.1 p.2 = true → r.upper_bound ≤ p.2
  upper_le_start : r.upper_bound ≤ t.upper_bound
  upper_hit : r.upper_bound = t.upper_bound ∨
    ∃ p ∈ cs, read_from_map pm p.1 p.2 = true ∧ r.upper_bound = p.2
  lower_ge : ∀ p ∈ cs, read_from_map pm p.1 p.2 = true → p.2 ≤ r.lower_bound
  lower_ge_start : t.lower_bound ≤ r.lower_bound
  lower_hit : r.lower_bound = t.lower_bound ∨
    ∃ p ∈ cs, read_from_map pm p.1 p.2 = true ∧ r.lower_bound = p.2
  left_le : ∀ p ∈ cs, read_from_map pm p.1 p.2 = true → r.left_bound ≤ p.1
  left_le_start : r.left_bound ≤ t.left_bound
  left_hit : r.left_bound = t.left_bound ∨
    ∃ p ∈ cs, read_from_map pm p.1 p.2 = true ∧ r.left_bound = p.1
  right_ge : ∀ p ∈ cs, read_from_map pm p.1 p.2 = true → p.1 ≤ r.right_bound
  right_ge_start : t.right_bound ≤ r.right_bound
  right_hit : r.right_bound = t.right_bound ∨
    ∃ p ∈ cs, read_from_map pm p.1 p.2 = true ∧ r.right_bound = p.1

/-! ## Feature downsampler: `create_nn_input` -/

/-- The column test of line 232 and the row test of line 235:
`bound + floor(i*delta) <= x && x <= bound + ceil((i+1)*delta)`. -/
def in_band (bound : Nat) (delta : ℚ) (i x : Nat) : Prop :=
  (bound : ℚ) + ⌊(i : ℚ) * delta⌋ ≤ (x : ℚ) ∧
    (x : ℚ) ≤ (bound : ℚ) + ⌈((i + 1 : Nat) : ℚ) * delta⌉

instance in_band_decidable (bound : Nat) (delta : ℚ) (i x : Nat) :
    Decidable (in_band bound delta i x) := by
  unfold in_band; infer_instance

/-- Loop over the rows `j` of `nn_input` (lines 234-238), for a lit pixel of ordinate `y`
that passed the test of column `i`. -/
def nn_input_rows (upper_bound : Nat) (delta_y : ℚ) (y i : Nat) (nn_input : List Bool) :
    List Bool :=
  (List.range 16).foldl (fun nn_input j =>
    if in_band upper_bound delta_y j y then nn_input.set (16 * j + i) true else nn_input)
    nn_input

/-- Loop over the columns `i` of `nn_input` (lines 231-240), for a lit pixel `(x, y)`. -/
def nn_input_columns (upper_bound left_bound : Nat) (delta_x delta_y : ℚ) (x y : Nat)
    (nn_input : List Bool) : List Bool :=
  (List.range 16).foldl (fun nn_input i =>
    if in_band left_bound delta_x i x then nn_input_rows upper_bound delta_y y i nn_input
    else nn_input) nn_input

/-- Lines 217-246 of `main.c`.  `calloc_ok` tells whether `calloc` returned a block; the
function returns `NULL` (`none`) when it did not.  The subtractions are `int` subtractions
and the division is by the `double` 16.0. -/
def create_nn_input (calloc_ok : Bool) (pixel_map : PixelMap)
    (upper_bound lower_bound left_bound right_bound : Nat) : Option (List Bool) :=
  if !calloc_ok then none else
  let nn_input : List Bool := List.replicate 256 false
  let delta_x : ℚ := (((right_bound : Int) - (left_bound : Int) : Int) : ℚ) / 16
  let delta_y : ℚ := (((lower_bound : Int) - (upper_bound : Int) : Int) : ℚ) / 16
  some <|
    (List.range' left_bound (right_bound + 1 - left_bound)).foldl (fun nn_input x =>
      (List.range' upper_bound (lower_bound + 1 - upper_bound)).foldl (fun nn_input y =>
        if read_from_map pixel_map x y then
          nn_input_columns upper_bound left_bound delta_x delta_y x y nn_input
        else nn_input) nn_input) nn_input

/-- The lit pixels of the box and the grid cells through which feature entry `k` is set. -/
def marks (pm : PixelMap) (u l lf r : Nat) (k : Nat) : Prop :=
  ∃ x ∈ List.range' lf (r + 1 - lf), ∃ y ∈ List.range' u (l + 1 - u),
    read_from_map pm x y = true ∧
      ∃ i ∈ List.range 16, in_band lf ((((r : Int) - (lf : Int) : Int) : ℚ) / 16) i x ∧
        ∃ j ∈ List.range 16, in_band u ((((l : Int) - (u : Int) : Int) : ℚ) / 16) j y ∧
          k = 16 * j + i

/-! ## Inference engine: `classify` -/

/-- The table `double ***weights`: layer, unit, index of the weight (the last index of a
row is the bias). -/
abbrev Weights := Nat → Nat → Nat → ℚ

/-- Conversion of a `double` to `uint16_t`, as every assignment to `sum` and `max` does:
the fractional part is discarded; the result is undefined (`none`) when the truncated value
is not in `0 .. 65535`. -/
def double_to_uint16 (d : ℚ) : Option Nat :=
  if -1 < d ∧ d < 65536 then some ⌊d⌋.toNat else none

/-- Lines 299-303: the `uint16_t sum` of hidden unit `i` after the loop over the inputs and
the addition of the bias. -/
def hidden_layer_sum (nn_input : List Bool) (weights : Weights) (i : Nat) : Option Nat := do
  let sum ← (List.range NUM_INPUT_UNITS).foldlM (fun (sum : Nat) j =>
    if nn_input.getD j false then double_to_uint16 ((sum : ℚ) + weights 0 i j)
    else some sum) 0
  double_to_uint16 ((sum : ℚ) + weights 0 i NUM_INPUT_UNITS)

/-- Lines 298-305: the array `hidden_layer_outputs` once filled. -/
def hidden_layer_outputs (nn_input : List Bool) (weights : Weights) : Option (List ℚ) :=
  (List.range NUM_HIDDEN_UNITS).mapM fun i =>
    (hidden_layer_sum nn_input weights i).map fun (sum : Nat) => (sum : ℚ)

/-- Lines 307-311: the `uint16_t sum` of output unit `i`. -/
def output_layer_sum (hidden_layer_outputs : List ℚ) (weights : Weights) (i : Nat) :
    Option Nat := do
  let sum ← (List.range NUM_HIDDEN_UNITS).foldlM (fun (sum : Nat) j =>
    double_to_uint16 ((sum : ℚ) + weights 1 i j * hidden_layer_outputs.getD j 0)) 0
  double_to_uint16 ((sum : ℚ) + weights 1 i NUM_HIDDEN_UNITS)

/-- Lines 298-313: the array `output_layer_outputs` once filled. -/
def output_layer_outputs (nn_input : List Bool) (weights : Weights) : Option (List ℚ) := do
  let hidden ← hidden_layer_outputs nn_input weights
  (List.range NUM_OUTPUT_UNITS).mapM fun i =>
    (output_layer_sum hidden weights i).map fun (sum : Nat) => (sum : ℚ)

/-- Lines 314-321: the scan for the maximum; the state of the loop is the pair
`(classification, max)`. -/
def classify_scan (output_layer_outputs : List ℚ) : Option Nat := do
  let max ← double_to_uint16 (output_layer_outputs.getD 0 0)
  let r ← (List.range' 1 (NUM_OUTPUT_UNITS - 1)).foldlM
    (fun (cm : Nat × Nat) i =>
      if output_layer_outputs.getD i 0 > (cm.2 : ℚ) then
        (double_to_uint16 (output_layer_outputs.getD i 0)).map fun max => (i, max)
      else some cm) (0, max)
  some r.1

/-- Lines 294-328 of `main.c` (both `malloc` calls are taken to succeed; the code does not
test them). -/
def classify (nn_input : List Bool) (weights : Weights) : Option Nat := do
  let outs ← output_layer_outputs nn_input weights
  classify_scan outs

/-- The loop invariant of the scan for the maximum: once the units below `s` have been
seen, `cm.1` is the first unit that holds the largest value and `cm.2` is that value. -/
def ScanInv (outs : List ℚ) (s : Nat) (cm : Nat × Nat) : Prop :=
  cm.1 < s ∧ (cm.2 : ℚ) = outs.getD cm.1 0 ∧
    (∀ k, k < s → outs.getD k 0 ≤ outs.getD cm.1 0) ∧
    ∀ k, k < cm.1 → outs.getD k 0 < outs.getD cm.1 0

/-- The weighted sum of hidden unit `i` in the words of the specification: the sum over the
input units `j` of `features[j] * weight0[i][j]`, plus the bias `weight0[i][NUM_INPUT_UNITS]`,
in exact arithmetic. -/
def hidden_weighted_sum (features : List Bool) (weight0 : Nat → Nat → ℚ) (i : Nat) : ℚ :=
  ((List.range NUM_INPUT_UNITS).map fun j =>
    (if features.getD j false then 1 else 0) * weight0 i j).sum + weight0 i NUM_INPUT_UNITS

/-- A weight table that is zero except for the bias of hidden unit 0, which is one half. -/
def w_half : Weights := fun l i j => if l = 0 ∧ i = 0 ∧ j = 256 then 1 / 2 else 0

/-- A weight table in which only the output biases are non-zero: 5 for units 3 and 7, 1 for
the other units. -/
def w_tie : Weights := fun l i j =>
  if l = 1 ∧ j = NUM_HIDDEN_UNITS then (if i = 3 ∨ i = 7 then 5 else 1) else 0

/-- The bitmap in which the pixel (10, 10) alone has been marked. -/
def pixel_map_10_10 : PixelMap := map_coordinates pixel_map_init 10 10

/-- The bitmap in which the pixel (13, 21) alone has been marked. -/
def pixel_map_13_21 : PixelMap := map_coordinates pixel_map_init 13 21

/-- The bitmap in which the pixels (10, 10) and (30, 40) have been marked. -/
def pixel_map_two : PixelMap := map_coordinates pixel_map_10_10 30 40

/-! ## The steps of `main` -/

/-- Lines 357-359 of `main`: the box `find_boundaries` returns is passed to
`create_nn_input`.  The drawing calls around them do not write `pixel_map`; on `none`
(`NULL`) `main` stops in its `while (true)` loop. -/
def main_nn_input (calloc_ok : Bool) (pixel_map : PixelMap) : Option (List Bool) :=
  create_nn_input calloc_ok pixel_map (find_boundaries pixel_map).upper_bound
    (find_boundaries pixel_map).lower_bound (find_boundaries pixel_map).left_bound
    (find_boundaries pixel_map).right_bound

/-- Lines 347-348 of `main`: `x = SCREEN_WIDTH - ft6x06_read_x()` and
`y = SCREEN_HEIGHT - ft6x06_read_y()`, `int` subtractions stored into `uint16_t`
variables. -/
def main_capture_coordinates (raw_x raw_y : Nat) : Nat × Nat :=
  ((((SCREEN_WIDTH : Int) - (raw_x : Int)) % 65536).toNat,
    (((SCREEN_HEIGHT : Int) - (raw_y : Int)) % 65536).toNat)

/-- Lines 347-350 of `main`: the capture step for one raw touch reading. -/
def main_capture (pixel_map : PixelMap) (raw_x raw_y : Nat) : PixelMap :=
  map_coordinates pixel_map (main_capture_coordinates raw_x raw_y).1
    (main_capture_coordinates raw_x raw_y).2

/-- The table in which every weight and bias is 0 except the bias of output unit `k`,
which is 1. -/
def w_bias (k : Nat) : Weights := fun l i j =>
  if l = 1 ∧ i = k ∧ j = NUM_HIDDEN_UNITS then 1 else 0

/-- The weighted sum of output unit `i` in the words of the specification: the sum over the
hidden units `j` of `hidden[j] * weight1[i][j]`, plus the bias `weight1[i][NUM_HIDDEN_UNITS]`,
where `hidden[j]` is the exact weighted sum of hidden unit `j`. -/
def output_weighted_sum (features : List Bool) (weights : Weights) (i : Nat) : ℚ :=
  ((List.range NUM_HIDDEN_UNITS).map fun j =>
    hidden_weighted_sum features (weights 0) j * weights 1 i j).sum
    + weights 1 i NUM_HIDDEN_UNITS

/-- The weighted sum of hidden unit `i` for a table `W` of natural numbers. -/
def hidden_nat (features : List Bool) (W : Nat → Nat → Nat → Nat) (i : Nat) : Nat :=
  ((List.range NUM_INPUT_UNITS).map fun j =>
    if features.getD j false then W 0 i j else 0).sum + W 0 i NUM_INPUT_UNITS

/-- The weighted sum of output unit `i` for a table `W` of natural numbers. -/
def output_nat (features : List Bool) (W : Nat → Nat → Nat → Nat) (i : Nat) : Nat :=
  ((List.range NUM_HIDDEN_UNITS).map fun j =>
    W 1 i j * hidden_nat features W j).sum + W 1 i NUM_HIDDEN_UNITS

/-- A table of natural numbers: hidden weights 2 on input 0 and 1 elsewhere with bias 3,
output weights `i` with bias 1. -/
def W_small : Nat → Nat → Nat → Nat := fun l i j =>
  if l = 0 then (if j = NUM_INPUT_UNITS then 3 else if j = 0 then 2 else 1)
  else (if j = NUM_HIDDEN_UNITS then 1 else i)

/-- The table `W_small` as a table of `double` weights. -/
def w_small : Weights := fun l i j => (W_small l i j : ℚ)

/-! ## Inference engine on an arbitrary `double` arithmetic -/

/-- The `double` arithmetic `classify` runs on: the type `D` of `double` values (infinities
and NaN included), the conversion of a `uint16_t` value to `double`, the addition and the
multiplication with their rounding, and the conversion of a `double` to `uint16_t`, which
for a value out of range is whatever the platform yields. -/
structure DoubleOps (D : Type) where
  of_uint16 : Nat → D
  add : D → D → D
  mul : D → D → D
  to_uint16 : D → Nat

/-- Assignment of a `double` to a `uint16_t` variable: the variable holds 16 bits. -/
def assign_uint16 {D : Type} (P : DoubleOps D) (d : D) : Nat :=
  P.to_uint16 d % 65536

/-- Lines 299-303 on the arithmetic `P`: the `uint16_t sum` of hidden unit `i`, each
`sum += w` being `sum = (uint16_t)((double)sum + w)`. -/
def hidden_layer_sum_on {D : Type} (P : DoubleOps D) (nn_input : List Bool)
    (weights : Nat → Nat → Nat → D) (i : Nat) : Nat :=
  let sum := (List.range NUM_INPUT_UNITS).foldl (fun (sum : Nat) j =>
    if nn_input.getD j false then assign_uint16 P (P.add (P.of_uint16 sum) (weights 0 i j))
    else sum) 0
  assign_uint16 P (P.add (P.of_uint16 sum) (weights 0 i NUM_INPUT_UNITS))

/-- Lines 298-305 on the arithmetic `P`: the values stored in `hidden_layer_outputs`.  Each
is the `double` of a `uint16_t`, an exact conversion, and is kept as that integer. -/
def hidden_layer_outputs_on {D : Type} (P : DoubleOps D) (nn_input : List Bool)
    (weights : Nat → Nat → Nat → D) : List Nat :=
  (List.range NUM_HIDDEN_UNITS).map fun i => hidden_layer_sum_on P nn_input weights i

/-- Lines 307-311 on the arithmetic `P`: the `uint16_t sum` of output unit `i`. -/
def output_layer_sum_on {D : Type} (P : DoubleOps D) (hidden_layer_outputs : List Nat)
    (weights : Nat → Nat → Nat → D) (i : Nat) : Nat :=
  let sum := (List.range NUM_HIDDEN_UNITS).foldl (fun (sum : Nat) j =>
    assign_uint16 P (P.add (P.of_uint16 sum)
      (P.mul (weights 1 i j) (P.of_uint16 (hidden_layer_outputs.getD j 0))))) 0
  assign_uint16 P (P.add (P.of_uint16 sum) (weights 1 i NUM_HIDDEN_UNITS))

/-- Lines 298-313 on the arithmetic `P`: the values stored in `output_layer_outputs`, kept
as the integers they are. -/
def output_layer_outputs_on {D : Type} (P : DoubleOps D) (nn_input : List Bool)
    (weights : Nat → Nat → Nat → D) : List Nat :=
  (List.range NUM_OUTPUT_UNITS).map fun i =>
    output_layer_sum_on P (hidden_layer_outputs_on P nn_input weights) weights i

/-- Lines 314-321: the scan for the maximum over the stored output sums; the state of the
loop is the pair `(classification, max)`.  The stored values and `max` are integers below
`2^16`, so the comparison in `double` and the assignment to `max` are exact. -/
def classify_scan_on (output_layer_outputs : List Nat) : Nat :=
  ((List.range' 1 (NUM_OUTPUT_UNITS - 1)).foldl
    (fun (cm : Nat × Nat) i =>
      if output_layer_outputs.getD i 0 > cm.2 then (i, output_layer_outputs.getD i 0)
      else cm) (0, output_layer_outputs.getD 0 0)).1

/-- Lines 294-328 of `main.c` on the arithmetic `P`: the index `classify` returns. -/
def classify_on {D : Type} (P : DoubleOps D) (nn_input : List Bool)
    (weights : Nat → Nat → Nat → D) : Nat :=
  classify_scan_on (output_layer_outputs_on P nn_input weights)

/-- The loop invariant of `classify_scan_on`: once the units below `s` have been seen,
`cm.1` is the first unit that holds the largest value and `cm.2` is that value. -/
def ScanInvOn (outs : List Nat) (s : Nat) (cm : Nat × Nat) : Prop :=
  cm.1 < s ∧ cm.2 = outs.getD cm.1 0 ∧
    (∀ k, k < s → outs.getD k 0 ≤ outs.getD cm.1 0) ∧
    ∀ k, k < cm.1 → outs.getD k 0 < outs.getD cm.1 0

/-- The exact arithmetic of `classify`: rational values, exact sums and products, and the
conversion `double_to_uint16` where it is defined (0 elsewhere). -/
def exact_ops : DoubleOps ℚ where
  of_uint16 := fun n => (n : ℚ)
  add := fun a b => a + b
  mul := fun a b => a * b
  to_uint16 := fun d => (double_to_uint16 d).getD 0

/-- An arithmetic on whole-number `double` values in which the conversion to `uint16_t`
of a negative value gives 0 and that of a large value keeps the low 16 bits. -/
def int_ops : DoubleOps Int where
  of_uint16 := fun n => (n : Int)
  add := fun a b => a + b
  mul := fun a b => a * b
  to_uint16 := fun d => d.toNat

/-- A whole-number table outside the range of the exact model: every hidden bias is -1,
every hidden weight 70000; the output biases are 5 for units 3 and 7 and 1 elsewhere,
the output weights 2. -/
def W_wild : Nat → Nat → Nat → Int := fun l i j =>
  if l = 0 then (if j = NUM_INPUT_UNITS then -1 else 70000)
  else (if j = NUM_HIDDEN_UNITS then (if i = 3 ∨ i = 7 then 5 else 1) else 2)

/-! ## Trigger debouncer: proofs -/

open DEBOUNCE_STATES

theorem sw2_pressed_fst (s : DEBOUNCE_STATES) (p : Bool) :
    (sw2_pressed s p).1 = sw2_next_state s p := by
  unfold sw2_pressed; dsimp only; split_ifs <;> rfl

theorem sw2_pressed_snd (s : DEBOUNCE_STATES) (p : Bool) :
    (sw2_pressed s p).2 = true ↔ sw2_next_state s p = DEBOUNCE_2ND_ZERO := by
  unfold sw2_pressed; dsimp only; split_ifs with h <;> simp [h]

/-- The value returned at tick `n` is the one `sw2_pressed` computes from the state reached
after the first `n` samples. -/
theorem sw2_run_getElem? (pins : List Bool) :
    ∀ (s : DEBOUNCE_STATES) (n : Nat),
      (sw2_run s pins)[n]? =
        (pins[n]?).map fun p => (sw2_pressed (sw2_state_after s (pins.take n)) p).2 := by
  induction pins with
  | nil => intro s n; simp [sw2_run]
  | cons p ps ih =>
    intro s n
    cases n with
    | zero => simp [sw2_run, sw2_state_after]
    | succ n =>
      simp only [sw2_run, List.getElem?_cons_succ, List.take_succ_cons]
      rw [ih]
      rfl

theorem sw2_state_after_succ (s : DEBOUNCE_STATES) (pins : List Bool) (n : Nat) (p : Bool)
    (h : pins[n]? = some p) :
    sw2_state_after s (pins.take (n + 1)) =
      sw2_next_state (sw2_state_after s (pins.take n)) p := by
  rw [List.take_succ, h]
  simp [sw2_state_after, List.foldl_append, sw2_pressed_fst]

theorem sw2_next_one (s : DEBOUNCE_STATES) (p : Bool) :
    sw2_next_state s p = DEBOUNCE_ONE ↔ p = true := by
  cases s <;> cases p <;> simp [sw2_next_state]

theorem sw2_next_first (s : DEBOUNCE_STATES) (p : Bool) :
    sw2_next_state s p = DEBOUNCE_1ST_ZERO ↔ p = false ∧ s = DEBOUNCE_ONE := by
  cases s <;> cases p <;> simp [sw2_next_state]

theorem sw2_next_second (s : DEBOUNCE_STATES) (p : Bool) :
    sw2_next_state s p = DEBOUNCE_2ND_ZERO ↔ p = false ∧ s = DEBOUNCE_1ST_ZERO := by
  cases s <;> cases p <;> simp [sw2_next_state]

/-- Before tick `n` the state is `DEBOUNCE_ONE` exactly when no sample precedes or the
previous sample was high. -/
theorem sw2_state_one_iff (pins : List Bool) (n : Nat) (hn : n ≤ pins.length) :
    sw2_state_after DEBOUNCE_ONE (pins.take n) = DEBOUNCE_ONE ↔
      n = 0 ∨ pins[n - 1]? = some true := by
  cases n with
  | zero => simp [sw2_state_after]
  | succ m =>
    have hm : m < pins.length := hn
    have hp : pins[m]? = some pins[m] := List.getElem?_eq_getElem hm
    rw [sw2_state_after_succ _ _ _ _ hp, sw2_next_one]
    simp [hp]

/-- Before tick `n` the state is `DEBOUNCE_1ST_ZERO` exactly when the previous sample was the
first low of a run. -/
theorem sw2_state_first_iff (pins : List Bool) (n : Nat) (hn : n ≤ pins.length) :
    sw2_state_after DEBOUNCE_ONE (pins.take n) = DEBOUNCE_1ST_ZERO ↔
      1 ≤ n ∧ pins[n - 1]? = some false ∧ (n = 1 ∨ pins[n - 2]? = some true) := by
  cases n with
  | zero => simp [sw2_state_after]
  | succ m =>
    have hm : m < pins.length := hn
    have hp : pins[m]? = some pins[m] := List.getElem?_eq_getElem hm
    rw [sw2_state_after_succ _ _ _ _ hp, sw2_next_first,
      sw2_state_one_iff pins m (Nat.le_of_lt hm)]
    simp [hp]

theorem sw2_fires_iff (pins : List Bool) (n : Nat) :
    (sw2_run sw2_initial_state pins)[n]? = some true ↔
      pins[n]? = some false ∧ 1 ≤ n ∧ pins[n - 1]? = some false ∧
        (n = 1 ∨ pins[n - 2]? = some true) := by
  rw [sw2_run_getElem?]
  by_cases hn : n < pins.length
  · have hp : pins[n]? = some pins[n] := List.getElem?_eq_getElem hn
    rw [hp]
    simp only [Option.map_some', Option.some.injEq]
    rw [sw2_pressed_snd, sw2_next_second, sw2_initial_state,
      sw2_state_first_iff pins n (Nat.le_of_lt hn)]
  · have hp : pins[n]? = none := List.getElem?_eq_none (by omega)
    simp [hp]

theorem sw2_fires_once_in_run (pins : List Bool) (a m : Nat)
    (hstart : a = 0 ∨ pins[a - 1]? = some true)
    (hlow : ∀ t, a ≤ t → t ≤ a + m → pins[t]? = some false)
    (t : Nat) (h1 : a ≤ t) (h2 : t ≤ a + m) :
    (sw2_run sw2_initial_state pins)[t]? = some true ↔ t = a + 1 := by
  rw [sw2_fires_iff]
  constructor
  · rintro ⟨_, ht, hprev, hpp⟩
    by_contra hne
    rcases Nat.lt_or_ge t (a + 1) with hlt | hge
    · have hta : t = a := by omega
      subst hta
      rcases hstart with h0 | hhigh
      · omega
      · rw [hprev] at hhigh
        exact absurd hhigh (by simp)
    · have h2le : a + 2 ≤ t := by omega
      rcases hpp with h | h
      · omega
      · rw [hlow (t - 2) (by omega) (by omega)] at h
        exact absurd h (by simp)
  · rintro rfl
    refine ⟨hlow (a + 1) h1 h2, by omega, ?_, ?_⟩
    · simpa using hlow a (le_refl a) (by omega)
    · rcases hstart with h0 | hhigh
      · exact Or.inl (by omega)
      · exact Or.inr (by simpa using hhigh)

/-- Claim C5: from the initial state, `sw2_pressed` returns true on tick `n` exactly when
samples `n` and `n-1` are low and sample `n-2` is high or does not exist; hence within an
unbroken run of lows that starts at tick `a` it returns true on tick `a+1` only; and the
samples high, low, low, low, low, high give false, false, true, false, false, false. -/
theorem sw2_pressed_fires_on_second_low :
    (∀ (pins : List Bool) (n : Nat),
      (sw2_run sw2_initial_state pins)[n]? = some true ↔
        pins[n]? = some false ∧ 1 ≤ n ∧ pins[n - 1]? = some false ∧
          (n = 1 ∨ pins[n - 2]? = some true)) ∧
    (∀ (pins : List Bool) (a m : Nat), (a = 0 ∨ pins[a - 1]? = some true) →
      (∀ t, a ≤ t → t ≤ a + m → pins[t]? = some false) →
      ∀ t, a ≤ t → t ≤ a + m →
        ((sw2_run sw2_initial_state pins)[t]? = some true ↔ t = a + 1)) ∧
    sw2_run sw2_initial_state [true, false, false, false, false, true]
      = [false, false, true, false, false, false] :=
  ⟨sw2_fires_iff, sw2_fires_once_in_run, by decide⟩

/-- Claim C6: the step of the debouncer follows the transition table: a high input leads to
`DEBOUNCE_ONE` from every state; a low input leads from `DEBOUNCE_ONE` to `DEBOUNCE_1ST_ZERO`,
from there to `DEBOUNCE_2ND_ZERO`, from there to `DEBOUNCE_PRESSED`, which it keeps; the
initial state is `DEBOUNCE_ONE`. -/
theorem sw2_transition_table :
    (∀ s : DEBOUNCE_STATES, (sw2_pressed s true).1 = DEBOUNCE_ONE) ∧
    (sw2_pressed DEBOUNCE_ONE false).1 = DEBOUNCE_1ST_ZERO ∧
    (sw2_pressed DEBOUNCE_1ST_ZERO false).1 = DEBOUNCE_2ND_ZERO ∧
    (sw2_pressed DEBOUNCE_2ND_ZERO false).1 = DEBOUNCE_PRESSED ∧
    (sw2_pressed DEBOUNCE_PRESSED false).1 = DEBOUNCE_PRESSED ∧
    sw2_initial_state = DEBOUNCE_ONE := by
  refine ⟨fun s => ?_, rfl, rfl, rfl, rfl, rfl⟩
  cases s <;> rfl

/-! ## Bitmap store: proofs -/

theorem and_mask_ne_zero (w k : Nat) : (w &&& 1 <<< k != 0) = w.testBit k := by
  rw [Nat.one_shiftLeft]
  by_cases h : w.testBit k
  · rw [h]
    have hb : (w &&& 2 ^ k).testBit k = true := by simp [h, Nat.testBit_two_pow_self]
    have h2 : w &&& 2 ^ k ≠ 0 := by
      intro h0; rw [h0] at hb; simp at hb
    simpa using h2
  · have hf : w.testBit k = false := by simpa using h
    rw [hf]
    have hz : w &&& 2 ^ k = 0 := by
      apply Nat.eq_of_testBit_eq
      intro i
      by_cases hik : k = i
      · subst hik; simp [hf]
      · simp [Nat.testBit_two_pow_of_ne hik]
    simp [hz]

theorem read_from_map_eq (pm : PixelMap) (x y : Nat) :
    read_from_map pm x y = (pm (y / 32) x).testBit (y % 32) := by
  unfold read_from_map; exact and_mask_ne_zero _ _

theorem read_map_same (pm : PixelMap) (x y : Nat) :
    read_from_map (map_coordinates pm x y) x y = true := by
  rw [read_from_map_eq]
  simp [map_coordinates, Nat.one_shiftLeft, Nat.testBit_two_pow_self]

theorem read_map_other (pm : PixelMap) (x y x' y' : Nat) (h : ¬ (x' = x ∧ y' = y)) :
    read_from_map (map_coordinates pm x y) x' y' = read_from_map pm x' y' := by
  rw [read_from_map_eq, read_from_map_eq]
  unfold map_coordinates
  by_cases hw : y' / 32 = y / 32 ∧ x' = x
  · rw [if_pos hw]
    have hne : y % 32 ≠ y' % 32 := by
      intro hm; apply h; refine ⟨hw.2, ?_⟩; omega
    simp [Nat.one_shiftLeft, Nat.testBit_two_pow_of_ne hne]
  · rw [if_neg hw]

theorem read_pixel_map_init (x y : Nat) : read_from_map pixel_map_init x y = false := by
  rw [read_from_map_eq]; simp [pixel_map_init]

/-- On the bitmap with one marked pixel, that pixel alone reads true. -/
theorem read_single (x y x' y' : Nat) :
    read_from_map (map_coordinates pixel_map_init x y) x' y' = true ↔ x' = x ∧ y' = y := by
  by_cases h : x' = x ∧ y' = y
  · obtain ⟨rfl, rfl⟩ := h
    simp [read_map_same]
  · rw [read_map_other _ _ _ _ _ h, read_pixel_map_init]
    simp [h]

/-- The stored words stay 32-bit words: the mask `1 << (y % 32)` is below `2^32`. -/
theorem map_coordinates_word_lt (pm : PixelMap) (x y : Nat)
    (h : ∀ r c, pm r c < 2 ^ 32) : ∀ r c, map_coordinates pm x y r c < 2 ^ 32 := by
  intro r c
  unfold map_coordinates
  split_ifs
  · apply Nat.or_lt_two_pow (h r c)
    rw [Nat.one_shiftLeft]
    exact Nat.pow_lt_pow_right (by decide) (Nat.mod_lt _ (by decide))
  · exact h r c

/-- Claim C7: for `x < 240` and `y < 320` and every bitmap, after `map_coordinates x y`
the cell `(x, y)` reads true and every other cell in range, the cells of the same 32-bit
word included, reads as before. -/
theorem map_coordinates_sets_only_cell (pixel_map : PixelMap) (x y : Nat)
    (hx : x < SCREEN_WIDTH) (hy : y < SCREEN_HEIGHT) :
    read_from_map (map_coordinates pixel_map x y) x y = true ∧
      ∀ x' y', x' < SCREEN_WIDTH → y' < SCREEN_HEIGHT → (x', y') ≠ (x, y) →
        read_from_map (map_coordinates pixel_map x y) x' y' = read_from_map pixel_map x' y' :=
  ⟨read_map_same pixel_map x y, fun x' y' _ _ hne =>
    read_map_other pixel_map x y x' y' (fun h => hne (by rw [h.1, h.2]))⟩

theorem map_coordinates_sets_only_cell_witness :
    (10 < SCREEN_WIDTH ∧ 40 < SCREEN_HEIGHT) ∧
      read_from_map (map_coordinates pixel_map_10_10 10 40) 10 40 = true ∧
      ∀ x' y', x' < SCREEN_WIDTH → y' < SCREEN_HEIGHT → (x', y') ≠ (10, 40) →
        read_from_map (map_coordinates pixel_map_10_10 10 40) x' y'
          = read_from_map pixel_map_10_10 x' y' :=
  ⟨by decide, map_coordinates_sets_only_cell pixel_map_10_10 10 40 (by decide) (by decide)⟩

/-! ## Bounding-box extractor: proofs -/

theorem foldl_nested {α β σ : Type} (f : σ → α → β → σ) (ys : List β) :
    ∀ (xs : List α) (s : σ),
      xs.foldl (fun s x => ys.foldl (fun s y => f s x y) s) s
        = (xs.flatMap fun x => ys.map fun y => (x, y)).foldl (fun s p => f s p.1 p.2) s := by
  intro xs
  induction xs with
  | nil => intro s; rfl
  | cons x xs ih =>
    intro s
    simp only [List.foldl_cons, List.flatMap_cons, List.foldl_append, List.foldl_map]
    exact ih _

theorem find_boundaries_eq_scan (pm : PixelMap) :
    find_boundaries pm = scan_cells pm (all_cells SCREEN_WIDTH SCREEN_HEIGHT)
      ⟨SCREEN_HEIGHT, 0, SCREEN_WIDTH, 0⟩ := by
  unfold find_boundaries scan_cells all_cells
  exact foldl_nested (fun t x y => find_boundaries_body pm x y t) _ _ _

theorem mem_all_cells (w h x y : Nat) : (x, y) ∈ all_cells w h ↔ x < w ∧ y < h := by
  simp [all_cells]

theorem scan_cells_spec (pm : PixelMap) :
    ∀ (cs : List (Nat × Nat)) (t : Bounds), ScanSpec pm cs t (scan_cells pm cs t) := by
  intro cs
  induction cs with
  | nil =>
    intro t
    constructor <;> simp [scan_cells]
  | cons c cs ih =>
    intro t
    have h := ih (find_boundaries_body pm c.1 c.2 t)
    have hs : scan_cells pm (c :: cs) t = scan_cells pm cs (find_boundaries_body pm c.1 c.2 t) := rfl
    rw [hs]
    generalize scan_cells pm cs (find_boundaries_body pm c.1 c.2 t) = r at h
    by_cases hc : read_from_map pm c.1 c.2 = true
    · have e : find_boundaries_body pm c.1 c.2 t =
        { upper_bound := if c.2 < t.upper_bound then c.2 else t.upper_bound
          lower_bound := if c.2 > t.lower_bound then c.2 else t.lower_bound
          left_bound := if c.1 < t.left_bound then c.1 else t.left_bound
          right_bound := if c.1 > t.right_bound then c.1 else t.right_bound } := by
        simp [find_boundaries_body, hc]
      rw [e] at h
      obtain ⟨h1, h2, h3, h4, h5, h6, h7, h8, h9, h10, h11, h12⟩ := h
      simp only at h2 h3 h5 h6 h8 h9 h11 h12
      constructor
      · intro p hp hr
        rcases List.mem_cons.1 hp with rfl | hp
        · split_ifs at h2 <;> omega
        · exact h1 p hp hr
      · split_ifs at h2 <;> omega
      · rcases h3 with h3 | ⟨p, hp, hr, e⟩
        · split_ifs at h3
          · exact Or.inr ⟨c, List.mem_cons_self _ _, hc, h3⟩
          · exact Or.inl h3
        · exact Or.inr ⟨p, List.mem_cons_of_mem _ hp, hr, e⟩
      · intro p hp hr
        rcases List.mem_cons.1 hp with rfl | hp
        · split_ifs at h5 <;> omega
        · exact h4 p hp hr
      · split_ifs at h5 <;> omega
      · rcases h6 with h6 | ⟨p, hp, hr, e⟩
        · split_ifs at h6
          · exact Or.inr ⟨c, List.mem_cons_self _ _, hc, h6⟩
          · exact Or.inl h6
        · exact Or.inr ⟨p, List.mem_cons_of_mem _ hp, hr, e⟩
      · intro p hp hr
        rcases List.mem_cons.1 hp with rfl | hp
        · split_ifs at h8 <;> omega
        · exact h7 p hp hr
      · split_ifs at h8 <;> omega
      · rcases h9 with h9 | ⟨p, hp, hr, e⟩
        · split_ifs at h9
          · exact Or.inr ⟨c, List.mem_cons_self _ _, hc, h9⟩
          · exact Or.inl h9
        · exact Or.inr ⟨p, List.mem_cons_of_mem _ hp, hr, e⟩
      · intro p hp hr
        rcases List.mem_cons.1 hp with rfl | hp
        · split_ifs at h11 <;> omega
        · exact h10 p hp hr
      · split_ifs at h11 <;> omega
      · rcases h12 with h12 | ⟨p, hp, hr, e⟩
        · split_ifs at h12
          · exact Or.inr ⟨c, List.mem_cons_self _ _, hc, h12⟩
          · exact Or.inl h12
        · exact Or.inr ⟨p, List.mem_cons_of_mem _ hp, hr, e⟩
    · have e : find_boundaries_body pm c.1 c.2 t = t := by
        simp [find_boundaries_body, hc]
      rw [e] at h
      obtain ⟨h1, h2, h3, h4, h5, h6, h7, h8, h9, h10, h11, h12⟩ := h
      constructor
      · intro p hp hr
        rcases List.mem_cons.1 hp with rfl | hp
        · exact absurd hr hc
        · exact h1 p hp hr
      · exact h2
      · rcases h3 with h3 | ⟨p, hp, hr, e⟩
        · exact Or.inl h3
        · exact Or.inr ⟨p, List.mem_cons_of_mem _ hp, hr, e⟩
      · intro p hp hr
        rcases List.mem_cons.1 hp with rfl | hp
        · exact absurd hr hc
        · exact h4 p hp hr
      · exact h5
      · rcases h6 with h6 | ⟨p, hp, hr, e⟩
        · exact Or.inl h6
        · exact Or.inr ⟨p, List.mem_cons_of_mem _ hp, hr, e⟩
      · intro p hp hr
        rcases List.mem_cons.1 hp with rfl | hp
        · exact absurd hr hc
        · exact h7 p hp hr
      · exact h8
      · rcases h9 with h9 | ⟨p, hp, hr, e⟩
        · exact Or.inl h9
        · exact Or.inr ⟨p, List.mem_cons_of_mem _ hp, hr, e⟩
      · intro p hp hr
        rcases List.mem_cons.1 hp with rfl | hp
        · exact absurd hr hc
        · exact h10 p hp hr
      · exact h11
      · rcases h12 with h12 | ⟨p, hp, hr, e⟩
        · exact Or.inl h12
        · exact Or.inr ⟨p, List.mem_cons_of_mem _ hp, hr, e⟩

/-- The four extremes `find_boundaries` returns on a bitmap with a set cell: each bounds
every set cell of the screen and each is attained by a set cell of the screen. -/
theorem find_boundaries_extremes (pm : PixelMap)
    (h : ∃ x y, x < SCREEN_WIDTH ∧ y < SCREEN_HEIGHT ∧ read_from_map pm x y = true) :
    (∀ x y, x < SCREEN_WIDTH → y < SCREEN_HEIGHT → read_from_map pm x y = true →
      (find_boundaries pm).upper_bound ≤ y ∧ y ≤ (find_boundaries pm).lower_bound ∧
      (find_boundaries pm).left_bound ≤ x ∧ x ≤ (find_boundaries pm).right_bound) ∧
    (∃ x, x < SCREEN_WIDTH ∧ (find_boundaries pm).upper_bound < SCREEN_HEIGHT ∧
      read_from_map pm x (find_boundaries pm).upper_bound = true) ∧
    (∃ x, x < SCREEN_WIDTH ∧ (find_boundaries pm).lower_bound < SCREEN_HEIGHT ∧
      read_from_map pm x (find_boundaries pm).lower_bound = true) ∧
    (∃ y, y < SCREEN_HEIGHT ∧ (find_boundaries pm).left_bound < SCREEN_WIDTH ∧
      read_from_map pm (find_boundaries pm).left_bound y = true) ∧
    (∃ y, y < SCREEN_HEIGHT ∧ (find_boundaries pm).right_bound < SCREEN_WIDTH ∧
      read_from_map pm (find_boundaries pm).right_bound y = true) := by
  obtain ⟨x0, y0, hx0, hy0, h0⟩ := h
  have hmem0 : (x0, y0) ∈ all_cells SCREEN_WIDTH SCREEN_HEIGHT :=
    (mem_all_cells _ _ _ _).2 ⟨hx0, hy0⟩
  have hs := scan_cells_spec pm (all_cells SCREEN_WIDTH SCREEN_HEIGHT)
    ⟨SCREEN_HEIGHT, 0, SCREEN_WIDTH, 0⟩
  rw [← find_boundaries_eq_scan] at hs
  obtain ⟨h1, _, h3, h4, _, h6, h7, _, h9, h10, _, h12⟩ := hs
  simp only at h3 h6 h9 h12
  have u0 := h1 _ hmem0 h0
  have l0 := h4 _ hmem0 h0
  have lf0 := h7 _ hmem0 h0
  have r0 := h10 _ hmem0 h0
  simp only at u0 l0 lf0 r0
  refine ⟨?_, ?_, ?_, ?_, ?_⟩
  · intro x y hx hy hr
    have hm : (x, y) ∈ all_cells SCREEN_WIDTH SCREEN_HEIGHT := (mem_all_cells _ _ _ _).2 ⟨hx, hy⟩
    exact ⟨h1 _ hm hr, h4 _ hm hr, h7 _ hm hr, h10 _ hm hr⟩
  · rcases h3 with e | ⟨p, hp, hr, e⟩
    · omega
    · obtain ⟨hpx, hpy⟩ := (mem_all_cells _ _ p.1 p.2).1 hp
      exact ⟨p.1, hpx, by omega, by rw [e]; exact hr⟩
  · rcases h6 with e | ⟨p, hp, hr, e⟩
    · have hy : y0 = 0 := by omega
      exact ⟨x0, hx0, by omega, by rw [e, ← hy]; exact h0⟩
    · obtain ⟨hpx, hpy⟩ := (mem_all_cells _ _ p.1 p.2).1 hp
      exact ⟨p.1, hpx, by omega, by rw [e]; exact hr⟩
  · rcases h9 with e | ⟨p, hp, hr, e⟩
    · omega
    · obtain ⟨hpx, hpy⟩ := (mem_all_cells _ _ p.1 p.2).1 hp
      exact ⟨p.2, hpy, by omega, by rw [e]; exact hr⟩
  · rcases h12 with e | ⟨p, hp, hr, e⟩
    · have hx : x0 = 0 := by omega
      exact ⟨y0, hy0, by omega, by rw [e, ← hx]; exact h0⟩
    · obtain ⟨hpx, hpy⟩ := (mem_all_cells _ _ p.1 p.2).1 hp
      exact ⟨p.2, hpy, by omega, by rw [e]; exact hr⟩

/-- On a bitmap whose only set cell of the screen is `(x, y)` the box is that cell. -/
theorem find_boundaries_single (pm : PixelMap) (x y : Nat)
    (hx : x < SCREEN_WIDTH) (hy : y < SCREEN_HEIGHT)
    (honly : ∀ x' y', x' < SCREEN_WIDTH → y' < SCREEN_HEIGHT →
      (read_from_map pm x' y' = true ↔ x' = x ∧ y' = y)) :
    find_boundaries pm =
      { upper_bound := y, lower_bound := y, left_bound := x, right_bound := x } := by
  obtain ⟨_, ⟨xu, hxu, hu, ru⟩, ⟨xl, hxl, hl, rl⟩, ⟨yl, hyl, hlf, rlf⟩, ⟨yr, hyr, hr, rr⟩⟩ :=
    find_boundaries_extremes pm ⟨x, y, hx, hy, (honly x y hx hy).2 ⟨rfl, rfl⟩⟩
  have e1 := ((honly _ _ hxu hu).1 ru).2
  have e2 := ((honly _ _ hxl hl).1 rl).2
  have e3 := ((honly _ _ hlf hyl).1 rlf).1
  have e4 := ((honly _ _ hr hyr).1 rr).1
  generalize find_boundaries pm = b at e1 e2 e3 e4
  cases b
  simp only at e1 e2 e3 e4
  simp [e1, e2, e3, e4]

/-- Claim C2: on a bitmap with at least one set cell `find_boundaries` returns the minimal
rectangle that encloses the set cells of the screen: every set cell lies inside it, and
its top is the ordinate of a set cell, as are its bottom, and its left and its right are
abscissas of set cells (so they are the least and the greatest ones). -/
theorem find_boundaries_minimal_rectangle (pixel_map : PixelMap)
    (h : ∃ x y, x < SCREEN_WIDTH ∧ y < SCREEN_HEIGHT ∧ read_from_map pixel_map x y = true) :
    (∀ x y, x < SCREEN_WIDTH → y < SCREEN_HEIGHT → read_from_map pixel_map x y = true →
      (find_boundaries pixel_map).upper_bound ≤ y ∧
      y ≤ (find_boundaries pixel_map).lower_bound ∧
      (find_boundaries pixel_map).left_bound ≤ x ∧
      x ≤ (find_boundaries pixel_map).right_bound) ∧
    (∃ x, x < SCREEN_WIDTH ∧ (find_boundaries pixel_map).upper_bound < SCREEN_HEIGHT ∧
      read_from_map pixel_map x (find_boundaries pixel_map).upper_bound = true) ∧
    (∃ x, x < SCREEN_WIDTH ∧ (find_boundaries pixel_map).lower_bound < SCREEN_HEIGHT ∧
      read_from_map pixel_map x (find_boundaries pixel_map).lower_bound = true) ∧
    (∃ y, y < SCREEN_HEIGHT ∧ (find_boundaries pixel_map).left_bound < SCREEN_WIDTH ∧
      read_from_map pixel_map (find_boundaries pixel_map).left_bound y = true) ∧
    (∃ y, y < SCREEN_HEIGHT ∧ (find_boundaries pixel_map).right_bound < SCREEN_WIDTH ∧
      read_from_map pixel_map (find_boundaries pixel_map).right_bound y = true) :=
  find_boundaries_extremes pixel_map h

theorem find_boundaries_minimal_rectangle_witness :
    (∃ x y, x < SCREEN_WIDTH ∧ y < SCREEN_HEIGHT ∧
      read_from_map (map_coordinates pixel_map_10_10 200 300) x y = true) ∧
    ∀ x y, x < SCREEN_WIDTH → y < SCREEN_HEIGHT →
      read_from_map (map_coordinates pixel_map_10_10 200 300) x y = true →
      (find_boundaries (map_coordinates pixel_map_10_10 200 300)).upper_bound ≤ y ∧
      y ≤ (find_boundaries (map_coordinates pixel_map_10_10 200 300)).lower_bound ∧
      (find_boundaries (map_coordinates pixel_map_10_10 200 300)).left_bound ≤ x ∧
      x ≤ (find_boundaries (map_coordinates pixel_map_10_10 200 300)).right_bound :=
  ⟨⟨200, 300, by decide, by decide, by decide⟩,
    (find_boundaries_minimal_rectangle (map_coordinates pixel_map_10_10 200 300)
      ⟨200, 300, by decide, by decide, by decide⟩).1⟩

/-- Claim C10: for `x < 240` and `y < 320`, on a bitmap in which the pixel `(x, y)` alone is
marked, `find_boundaries` returns top `y`, bottom `y`, left `x` and right `x` (the cases
`x = 0` and `y = 0` included). -/
theorem find_boundaries_single_pixel (pixel_map : PixelMap) (x y : Nat)
    (hx : x < SCREEN_WIDTH) (hy : y < SCREEN_HEIGHT)
    (honly : ∀ x' y', x' < SCREEN_WIDTH → y' < SCREEN_HEIGHT →
      (read_from_map pixel_map x' y' = true ↔ x' = x ∧ y' = y)) :
    find_boundaries pixel_map =
      { upper_bound := y, lower_bound := y, left_bound := x, right_bound := x } :=
  find_boundaries_single pixel_map x y hx hy honly

theorem find_boundaries_single_pixel_witness :
    find_boundaries (map_coordinates pixel_map_init 0 0) =
      { upper_bound := 0, lower_bound := 0, left_bound := 0, right_bound := 0 } :=
  find_boundaries_single_pixel (map_coordinates pixel_map_init 0 0) 0 0 (by decide) (by decide)
    (fun x' y' _ _ => read_single 0 0 x' y')

/-! ## Feature downsampler: proofs -/

theorem foldl_mark {α : Type} (k : Nat) (step : List Bool → α → List Bool) (Q : α → Prop)
    (hstep : ∀ v a, k < v.length →
      (step v a).length = v.length ∧ ((step v a)[k]? = some true ↔ v[k]? = some true ∨ Q a)) :
    ∀ (xs : List α) (v : List Bool), k < v.length →
      (xs.foldl step v).length = v.length ∧
        ((xs.foldl step v)[k]? = some true ↔ v[k]? = some true ∨ ∃ a ∈ xs, Q a) := by
  intro xs
  induction xs with
  | nil => intro v _; simp
  | cons a xs ih =>
    intro v hv
    obtain ⟨hl, hiff⟩ := hstep v a hv
    obtain ⟨hl2, hiff2⟩ := ih (step v a) (by omega)
    refine ⟨by simpa [hl] using hl2, ?_⟩
    simp only [List.foldl_cons, hiff2, hiff, List.mem_cons, exists_eq_or_imp, or_assoc]

theorem ite_mark {k : Nat} (c : Prop) [Decidable c] (f : List Bool → List Bool) (Q : Prop)
    (v : List Bool)
    (hf : (f v).length = v.length ∧ ((f v)[k]? = some true ↔ v[k]? = some true ∨ Q)) :
    (if c then f v else v).length = v.length ∧
      ((if c then f v else v)[k]? = some true ↔ v[k]? = some true ∨ (c ∧ Q)) := by
  by_cases h : c
  · simpa [h] using hf
  · simp [h]

theorem set_mark (k n : Nat) (v : List Bool) (hk : k < v.length) :
    (v.set n true).length = v.length ∧
      ((v.set n true)[k]? = some true ↔ v[k]? = some true ∨ k = n) := by
  refine ⟨List.length_set _ _ _, ?_⟩
  by_cases h : n = k
  · subst h
    simp [List.getElem?_set_self, hk]
  · rw [List.getElem?_set_ne h]
    simp [Ne.symm h]


theorem nn_input_rows_mark (k u : Nat) (dy : ℚ) (y i : Nat) (v : List Bool) (hv : k < v.length) :
    (nn_input_rows u dy y i v).length = v.length ∧
      ((nn_input_rows u dy y i v)[k]? = some true ↔
        v[k]? = some true ∨ ∃ j ∈ List.range 16, in_band u dy j y ∧ k = 16 * j + i) :=
  foldl_mark k _ (fun j => in_band u dy j y ∧ k = 16 * j + i)
    (fun v j hv => ite_mark (in_band u dy j y) (fun v => v.set (16 * j + i) true) _ v
      (set_mark k (16 * j + i) v hv)) _ v hv

theorem nn_input_columns_mark (k u lf : Nat) (dx dy : ℚ) (x y : Nat) (v : List Bool)
    (hv : k < v.length) :
    (nn_input_columns u lf dx dy x y v).length = v.length ∧
      ((nn_input_columns u lf dx dy x y v)[k]? = some true ↔
        v[k]? = some true ∨ ∃ i ∈ List.range 16, in_band lf dx i x ∧
          ∃ j ∈ List.range 16, in_band u dy j y ∧ k = 16 * j + i) :=
  foldl_mark k _ (fun i => in_band lf dx i x ∧ ∃ j ∈ List.range 16, in_band u dy j y ∧ k = 16 * j + i)
    (fun v i hv => ite_mark (in_band lf dx i x) (nn_input_rows u dy y i) _ v
      (nn_input_rows_mark k u dy y i v hv)) _ v hv

theorem replicate_false_ne (n k : Nat) : ¬ (List.replicate n false)[k]? = some true := by
  rw [List.getElem?_replicate]
  split_ifs <;> simp

theorem create_nn_input_entry (pm : PixelMap) (u l lf r : Nat) :
    ∃ v, create_nn_input true pm u l lf r = some v ∧ v.length = 256 ∧
      ∀ k, k < 256 → (v[k]? = some true ↔ marks pm u l lf r k) := by
  have key : ∀ k, k < 256 → _ := fun k hk =>
    foldl_mark k _ _ (fun v x hv =>
      foldl_mark k _ _ (fun v y hv =>
        ite_mark (read_from_map pm x y = true)
          (nn_input_columns u lf ((((r : Int) - (lf : Int) : Int) : ℚ) / 16)
            ((((l : Int) - (u : Int) : Int) : ℚ) / 16) x y) _ v
          (nn_input_columns_mark k u lf _ _ x y v hv))
        (List.range' u (l + 1 - u)) v hv)
      (List.range' lf (r + 1 - lf)) (List.replicate 256 false)
      (by rw [List.length_replicate]; exact hk)
  refine ⟨_, rfl, ?_, ?_⟩
  · rw [(key 0 (by omega)).1, List.length_replicate]
  · intro k hk
    rw [(key k hk).2]
    unfold marks
    simp only [replicate_false_ne, false_or]

theorem in_band_natCast (b d i x : Nat) :
    in_band b (d : ℚ) i x ↔ b + i * d ≤ x ∧ x ≤ b + (i + 1) * d := by
  unfold in_band
  have h1 : (i : ℚ) * (d : ℚ) = ((i * d : Nat) : ℚ) := by push_cast; ring
  have h2 : ((i + 1 : Nat) : ℚ) * (d : ℚ) = (((i + 1) * d : Nat) : ℚ) := by push_cast; ring
  rw [h1, h2, Int.floor_natCast, Int.ceil_natCast]
  constructor
  · rintro ⟨ha, hb⟩
    exact ⟨by exact_mod_cast ha, by exact_mod_cast hb⟩
  · rintro ⟨ha, hb⟩
    exact ⟨by exact_mod_cast ha, by exact_mod_cast hb⟩

theorem delta_of_mul (lo d : Nat) :
    ((((lo + 16 * d : Nat) : Int) - (lo : Int) : Int) : ℚ) / 16 = (d : ℚ) := by
  push_cast; ring

theorem band_unique (d a i : Nat) (hpos : 0 < d) (hd : ¬ d ∣ a) :
    (i * d ≤ a ∧ a ≤ (i + 1) * d) ↔ i = a / d := by
  constructor
  · rintro ⟨h1, h2⟩
    have h3 : a ≠ (i + 1) * d := fun e => hd ⟨i + 1, by rw [e, Nat.mul_comm]⟩
    have h4 : a < (i + 1) * d := lt_of_le_of_ne h2 h3
    have h5 : i ≤ a / d := (Nat.le_div_iff_mul_le hpos).2 h1
    have h6 : a / d < i + 1 := (Nat.div_lt_iff_lt_mul hpos).2 h4
    omega
  · rintro rfl
    exact ⟨Nat.div_mul_le_self a d,
      le_of_lt ((Nat.div_lt_iff_lt_mul hpos).1 (Nat.lt_succ_self _))⟩

theorem single_cell (lo hi d p : Nat) (hhi : hi = lo + 16 * d) (hp : lo ≤ p ∧ p ≤ hi)
    (hd : ¬ d ∣ p - lo) (i : Nat) :
    (i ∈ List.range 16 ∧ in_band lo ((((hi : Int) - (lo : Int) : Int) : ℚ) / 16) i p) ↔
      i = (p - lo) / d := by
  subst hhi
  rw [delta_of_mul, in_band_natCast, List.mem_range]
  have hpos : 0 < d := by
    rcases Nat.eq_zero_or_pos d with h | h
    · subst h
      have : p - lo = 0 := by omega
      rw [this] at hd
      exact absurd (dvd_refl 0) hd
    · exact h
  have key := band_unique d (p - lo) i hpos hd
  have h16 : (p - lo) / d < 16 := by
    rw [Nat.div_lt_iff_lt_mul hpos]
    have h3 : p - lo ≠ 16 * d := fun e => hd ⟨16, by rw [e, Nat.mul_comm]⟩
    omega
  constructor
  · rintro ⟨_, h1, h2⟩
    exact key.1 ⟨by omega, by omega⟩
  · intro e
    obtain ⟨h1, h2⟩ := key.2 e
    exact ⟨by omega, by omega, by omega⟩

theorem in_band_degenerate (b i p : Nat) :
    in_band b ((((b : Int) - (b : Int) : Int) : ℚ) / 16) i p ↔ p = b := by
  have h : ((((b : Int) - (b : Int) : Int) : ℚ) / 16) = ((0 : Nat) : ℚ) := by simp
  rw [h, in_band_natCast]
  omega

theorem marks_interior (pm : PixelMap) (u l lf r x y dX dY k : Nat)
    (hr : r = lf + 16 * dX) (hl : l = u + 16 * dY)
    (hx : lf ≤ x ∧ x ≤ r) (hy : u ≤ y ∧ y ≤ l)
    (honly : ∀ x' y', lf ≤ x' → x' ≤ r → u ≤ y' → y' ≤ l →
      (read_from_map pm x' y' = true ↔ x' = x ∧ y' = y))
    (hxi : ¬ dX ∣ x - lf) (hyi : ¬ dY ∣ y - u) :
    marks pm u l lf r k ↔ k = 16 * ((y - u) / dY) + (x - lf) / dX := by
  unfold marks
  constructor
  · rintro ⟨x', hx', y', hy', hread, i, hi, hbi, j, hj, hbj, rfl⟩
    rw [List.mem_range'_1] at hx' hy'
    obtain ⟨rfl, rfl⟩ := (honly x' y' (by omega) (by omega) (by omega) (by omega)).1 hread
    rw [(single_cell lf r dX x' hr hx hxi i).1 ⟨hi, hbi⟩,
      (single_cell u l dY y' hl hy hyi j).1 ⟨hj, hbj⟩]
  · rintro rfl
    have hread := (honly x y hx.1 hx.2 hy.1 hy.2).2 ⟨rfl, rfl⟩
    obtain ⟨hi, hbi⟩ := (single_cell lf r dX x hr hx hxi _).2 rfl
    obtain ⟨hj, hbj⟩ := (single_cell u l dY y hl hy hyi _).2 rfl
    exact ⟨x, by rw [List.mem_range'_1]; omega, y, by rw [List.mem_range'_1]; omega, hread,
      _, hi, hbi, _, hj, hbj, rfl⟩

theorem marks_degenerate (pm : PixelMap) (x y k : Nat) (hk : k < 256)
    (hread : read_from_map pm x y = true) : marks pm y y x x k := by
  refine ⟨x, by rw [List.mem_range'_1]; omega, y, by rw [List.mem_range'_1]; omega, hread,
    k % 16, by rw [List.mem_range]; omega, (in_band_degenerate x _ x).2 rfl,
    k / 16, by rw [List.mem_range]; omega, (in_band_degenerate y _ y).2 rfl, by omega⟩

theorem create_nn_input_degenerate (pm : PixelMap) (x y : Nat)
    (hread : read_from_map pm x y = true) :
    create_nn_input true pm y y x x = some (List.replicate 256 true) := by
  obtain ⟨v, hv, hlen, hiff⟩ := create_nn_input_entry pm y y x x
  rw [hv]
  congr 1
  apply List.ext_getElem?
  intro k
  by_cases hk : k < 256
  · rw [(hiff k hk).2 (marks_degenerate pm x y k hk hread), List.getElem?_replicate, if_pos hk]
  · rw [List.getElem?_eq_none (by omega), List.getElem?_replicate, if_neg hk]

theorem in_band_rat (b hi lo i p : Nat) :
    in_band b ((((hi : Int) - (lo : Int) : Int) : ℚ) / 16) i p ↔
      ((b : ℚ) + ⌊(i : ℚ) * (((hi : ℚ) - (lo : ℚ)) / 16)⌋ ≤ (p : ℚ) ∧
        (p : ℚ) ≤ (b : ℚ) + ⌈((i : ℚ) + 1) * (((hi : ℚ) - (lo : ℚ)) / 16)⌉) := by
  unfold in_band
  push_cast
  exact Iff.rfl

/-- On a bitmap whose only set cell of the screen is `(x, y)`, the box found and the
feature vector made from it. -/
theorem single_pixel_pipeline (pm : PixelMap) (x y : Nat)
    (hx : x < SCREEN_WIDTH) (hy : y < SCREEN_HEIGHT)
    (honly : ∀ x' y', x' < SCREEN_WIDTH → y' < SCREEN_HEIGHT →
      (read_from_map pm x' y' = true ↔ x' = x ∧ y' = y)) :
    find_boundaries pm =
        { upper_bound := y, lower_bound := y, left_bound := x, right_bound := x } ∧
      create_nn_input true pm y y x x = some (List.replicate 256 true) :=
  ⟨find_boundaries_single pm x y hx hy honly,
    create_nn_input_degenerate pm x y ((honly x y hx hy).2 ⟨rfl, rfl⟩)⟩

theorem replicate_true_one : (List.replicate 256 true)[1]? = some true := by
  rw [List.getElem?_replicate, if_pos (by decide)]

/-- Claim C1: for every bitmap, every valid box and every column `i` and row `j` below 16,
entry `16*j+i` of the vector `create_nn_input` returns is true exactly when some lit pixel
`(x, y)` of the box lies in the band of column `i`,
`left + floor(i*deltaX) ≤ x ≤ left + ceil((i+1)*deltaX)`, and in the band of row `j`,
`top + floor(j*deltaY) ≤ y ≤ top + ceil((j+1)*deltaY)`, with `deltaX = (right-left)/16` and
`deltaY = (bottom-top)/16` exact rationals; the allocation succeeds. -/
theorem create_nn_input_entry_iff (pixel_map : PixelMap)
    (upper_bound lower_bound left_bound right_bound i j : Nat)
    (hu : upper_bound ≤ lower_bound) (hl : lower_bound < SCREEN_HEIGHT)
    (hlf : left_bound ≤ right_bound) (hr : right_bound < SCREEN_WIDTH)
    (hi : i < 16) (hj : j < 16) :
    ∃ nn_input,
      create_nn_input true pixel_map upper_bound lower_bound left_bound right_bound
        = some nn_input ∧ nn_input.length = 256 ∧
      (nn_input[16 * j + i]? = some true ↔
        ∃ x y, (left_bound ≤ x ∧ x ≤ right_bound) ∧ (upper_bound ≤ y ∧ y ≤ lower_bound) ∧
          read_from_map pixel_map x y = true ∧
          ((left_bound : ℚ) + ⌊(i : ℚ) * (((right_bound : ℚ) - (left_bound : ℚ)) / 16)⌋
              ≤ (x : ℚ) ∧
            (x : ℚ) ≤ (left_bound : ℚ)
              + ⌈((i : ℚ) + 1) * (((right_bound : ℚ) - (left_bound : ℚ)) / 16)⌉) ∧
          ((upper_bound : ℚ) + ⌊(j : ℚ) * (((lower_bound : ℚ) - (upper_bound : ℚ)) / 16)⌋
              ≤ (y : ℚ) ∧
            (y : ℚ) ≤ (upper_bound : ℚ)
              + ⌈((j : ℚ) + 1) * (((lower_bound : ℚ) - (upper_bound : ℚ)) / 16)⌉)) := by
  obtain ⟨v, hv, hlen, hiff⟩ :=
    create_nn_input_entry pixel_map upper_bound lower_bound left_bound right_bound
  refine ⟨v, hv, hlen, ?_⟩
  rw [hiff (16 * j + i) (by omega)]
  unfold marks
  constructor
  · rintro ⟨x, hx, y, hy, hread, i', hi', hbi, j', hj', hbj, e⟩
    rw [List.mem_range'_1] at hx hy
    rw [List.mem_range] at hi' hj'
    obtain ⟨rfl, rfl⟩ : i' = i ∧ j' = j := by omega
    exact ⟨x, y, by omega, by omega, hread, (in_band_rat _ _ _ _ _).1 hbi,
      (in_band_rat _ _ _ _ _).1 hbj⟩
  · rintro ⟨x, y, hx, hy, hread, hbi, hbj⟩
    exact ⟨x, by rw [List.mem_range'_1]; omega, y, by rw [List.mem_range'_1]; omega, hread,
      i, List.mem_range.2 hi, (in_band_rat _ _ _ _ _).2 hbi,
      j, List.mem_range.2 hj, (in_band_rat _ _ _ _ _).2 hbj, rfl⟩

theorem create_nn_input_entry_iff_witness :
    ∃ nn_input,
      create_nn_input true pixel_map_13_21 20 52 10 42 = some nn_input ∧
      nn_input.length = 256 ∧
      (nn_input[16 * 0 + 1]? = some true ↔
        ∃ x y, (10 ≤ x ∧ x ≤ 42) ∧ (20 ≤ y ∧ y ≤ 52) ∧
          read_from_map pixel_map_13_21 x y = true ∧
          (((10 : Nat) : ℚ) + ⌊((1 : Nat) : ℚ) * ((((42 : Nat) : ℚ) - ((10 : Nat) : ℚ)) / 16)⌋
              ≤ (x : ℚ) ∧
            (x : ℚ) ≤ ((10 : Nat) : ℚ)
              + ⌈(((1 : Nat) : ℚ) + 1) * ((((42 : Nat) : ℚ) - ((10 : Nat) : ℚ)) / 16)⌉) ∧
          (((20 : Nat) : ℚ) + ⌊((0 : Nat) : ℚ) * ((((52 : Nat) : ℚ) - ((20 : Nat) : ℚ)) / 16)⌋
              ≤ (y : ℚ) ∧
            (y : ℚ) ≤ ((20 : Nat) : ℚ)
              + ⌈(((0 : Nat) : ℚ) + 1) * ((((52 : Nat) : ℚ) - ((20 : Nat) : ℚ)) / 16)⌉)) :=
  create_nn_input_entry_iff pixel_map_13_21 20 52 10 42 1 0
    (by decide) (by decide) (by decide) (by decide) (by decide) (by decide)

/-- Claim C8, as the code has it: for every pixel `(x, y)` of the screen, on a bitmap in
which `(x, y)` alone is marked, `find_boundaries` returns the box `(y, y, x, x)` and
`create_nn_input` on that box returns a vector whose 256 entries are all true: with
`deltaX = deltaY = 0` every column band and every row band is the single coordinate of
the pixel. -/
theorem single_pixel_sets_every_feature (pixel_map : PixelMap) (x y : Nat)
    (hx : x < SCREEN_WIDTH) (hy : y < SCREEN_HEIGHT)
    (honly : ∀ x' y', x' < SCREEN_WIDTH → y' < SCREEN_HEIGHT →
      (read_from_map pixel_map x' y' = true ↔ x' = x ∧ y' = y)) :
    find_boundaries pixel_map =
        { upper_bound := y, lower_bound := y, left_bound := x, right_bound := x } ∧
      create_nn_input true pixel_map y y x x = some (List.replicate 256 true) :=
  single_pixel_pipeline pixel_map x y hx hy honly

theorem single_pixel_sets_every_feature_witness :
    find_boundaries pixel_map_10_10 =
        { upper_bound := 10, lower_bound := 10, left_bound := 10, right_bound := 10 } ∧
      create_nn_input true pixel_map_10_10 10 10 10 10 = some (List.replicate 256 true) :=
  single_pixel_sets_every_feature pixel_map_10_10 10 10 (by decide) (by decide)
    (fun x' y' _ _ => read_single 10 10 x' y')

/-- Claim C8 as stated fails at the pixel (10, 10): the box is (10, 10, 10, 10) and the
feature vector is not the one with entry 0 alone true; entry 1 is true as well. -/
theorem single_pixel_not_only_cell_zero :
    find_boundaries pixel_map_10_10 =
        { upper_bound := 10, lower_bound := 10, left_bound := 10, right_bound := 10 } ∧
      ¬ ∃ nn_input, create_nn_input true pixel_map_10_10 10 10 10 10 = some nn_input ∧
        ∀ k, k < 256 → (nn_input[k]? = some true ↔ k = 0) := by
  obtain ⟨hb, hv⟩ := single_pixel_pipeline pixel_map_10_10 10 10 (by decide) (by decide)
    (fun x' y' _ _ => read_single 10 10 x' y')
  refine ⟨hb, ?_⟩
  rintro ⟨v, hv', hall⟩
  rw [hv] at hv'
  cases hv'
  exact absurd ((hall 1 (by decide)).1 replicate_true_one) (by decide)

/-- Claim C9: for a valid box whose width and height are multiples of 16, with cell sizes
`dX = (right-left)/16` and `dY = (bottom-top)/16`, and a bitmap whose only lit pixel
`(x, y)` in the box is interior to a grid cell (`x-left` is no multiple of `dX`, `y-top` no
multiple of `dY`), `create_nn_input` sets exactly one entry of the feature vector, entry
`16*floor((y-top)/dY) + floor((x-left)/dX)`; so only a pixel on a cell border can set two
adjacent cells. -/
theorem create_nn_input_interior_pixel (pixel_map : PixelMap)
    (upper_bound lower_bound left_bound right_bound x y : Nat)
    (hu : upper_bound ≤ lower_bound) (hl : lower_bound < SCREEN_HEIGHT)
    (hlf : left_bound ≤ right_bound) (hr : right_bound < SCREEN_WIDTH)
    (hw : 16 ∣ right_bound - left_bound) (hh : 16 ∣ lower_bound - upper_bound)
    (hx : left_bound ≤ x ∧ x ≤ right_bound) (hy : upper_bound ≤ y ∧ y ≤ lower_bound)
    (honly : ∀ x' y', left_bound ≤ x' → x' ≤ right_bound → upper_bound ≤ y' →
      y' ≤ lower_bound → (read_from_map pixel_map x' y' = true ↔ x' = x ∧ y' = y))
    (hxi : ¬ (right_bound - left_bound) / 16 ∣ x - left_bound)
    (hyi : ¬ (lower_bound - upper_bound) / 16 ∣ y - upper_bound) :
    ∃ nn_input,
      create_nn_input true pixel_map upper_bound lower_bound left_bound right_bound
        = some nn_input ∧ nn_input.length = 256 ∧
      ∀ k, k < 256 → (nn_input[k]? = some true ↔
        k = 16 * ((y - upper_bound) / ((lower_bound - upper_bound) / 16))
          + (x - left_bound) / ((right_bound - left_bound) / 16)) := by
  obtain ⟨v, hv, hlen, hiff⟩ :=
    create_nn_input_entry pixel_map upper_bound lower_bound left_bound right_bound
  refine ⟨v, hv, hlen, fun k hk => ?_⟩
  rw [hiff k hk]
  have e1 : right_bound = left_bound + 16 * ((right_bound - left_bound) / 16) := by
    rw [Nat.mul_div_cancel' hw]; omega
  have e2 : lower_bound = upper_bound + 16 * ((lower_bound - upper_bound) / 16) := by
    rw [Nat.mul_div_cancel' hh]; omega
  exact marks_interior pixel_map upper_bound lower_bound left_bound right_bound x y _ _ k
    e1 e2 hx hy honly hxi hyi

theorem create_nn_input_interior_pixel_witness :
    ∃ nn_input,
      create_nn_input true pixel_map_13_21 20 52 10 42 = some nn_input ∧
      nn_input.length = 256 ∧
      ∀ k, k < 256 → (nn_input[k]? = some true ↔
        k = 16 * ((21 - 20) / ((52 - 20) / 16)) + (13 - 10) / ((42 - 10) / 16)) :=
  create_nn_input_interior_pixel pixel_map_13_21 20 52 10 42 13 21
    (by decide) (by decide) (by decide) (by decide) (by decide) (by decide)
    (by decide) (by decide) (fun x' y' _ _ _ _ => read_single 13 21 x' y')
    (by decide) (by decide)

/-! ## Inference engine: proofs -/

theorem double_to_uint16_natCast (n : Nat) (h : n < 65536) : double_to_uint16 (n : ℚ) = some n := by
  unfold double_to_uint16
  have h1 : (-1 : ℚ) < (n : ℚ) := by
    have : (0 : ℚ) ≤ (n : ℚ) := Nat.cast_nonneg n
    linarith
  have h2 : (n : ℚ) < 65536 := by exact_mod_cast h
  rw [if_pos ⟨h1, h2⟩]
  simp

theorem double_to_uint16_lt (d : ℚ) (n : Nat) (h : double_to_uint16 d = some n) : n < 65536 := by
  unfold double_to_uint16 at h
  split_ifs at h with hc
  simp only [Option.some.injEq] at h
  subst h
  have : ⌊d⌋ < 65536 := Int.floor_lt.2 (by exact_mod_cast hc.2)
  omega

theorem mapM_some {α β : Type} (f : α → Option β) :
    ∀ (xs : List α) (ys : List β), xs.mapM f = some ys →
      ys.length = xs.length ∧ ∀ i : Nat, (xs[i]?).bind f = ys[i]? := by
  intro xs
  induction xs with
  | nil =>
    intro ys h
    rw [List.mapM_nil] at h
    cases h
    simp
  | cons x xs ih =>
    intro ys h
    rw [List.mapM_cons] at h
    simp only [Option.pure_def, Option.bind_eq_bind, Option.bind_eq_some] at h
    obtain ⟨y, hy, ys', hys, e⟩ := h
    simp only [Option.some.injEq] at e
    subst e
    obtain ⟨hl, hi⟩ := ih ys' hys
    refine ⟨by simp [hl], ?_⟩
    intro i
    cases i with
    | zero => simp [hy]
    | succ i => simpa using hi i

theorem classify_scan_loop (outs : List ℚ) (N : Nat)
    (hu : ∀ k, k < N → ∃ n : Nat, n < 65536 ∧ outs.getD k 0 = (n : ℚ)) :
    ∀ (n s : Nat) (cm : Nat × Nat), s + n ≤ N → ScanInv outs s cm →
      ∃ cm', (List.range' s n).foldlM
        (fun (cm : Nat × Nat) i =>
          if outs.getD i 0 > (cm.2 : ℚ) then
            (double_to_uint16 (outs.getD i 0)).map fun max => (i, max)
          else some cm) cm = some cm' ∧ ScanInv outs (s + n) cm' := by
  intro n
  induction n with
  | zero =>
    intro s cm _ h
    exact ⟨cm, by simp, by simpa using h⟩
  | succ n ih =>
    intro s cm hs h
    obtain ⟨h1, h2, h3, h4⟩ := h
    obtain ⟨m, hm, hmo⟩ := hu s (by omega)
    rw [List.range'_succ, List.foldlM_cons]
    by_cases hgt : outs.getD s 0 > (cm.2 : ℚ)
    · have inv : ScanInv outs (s + 1) (s, m) := by
        refine ⟨by simp, hmo.symm, ?_, ?_⟩
        · intro k hk
          rcases Nat.lt_succ_iff_lt_or_eq.1 hk with hk | rfl
          · exact le_trans (h3 k hk) (by rw [← h2]; exact le_of_lt hgt)
          · exact le_refl _
        · intro k hk
          exact lt_of_le_of_lt (h3 k hk) (by rw [← h2]; exact hgt)
      obtain ⟨cm', e, inv'⟩ := ih (s + 1) (s, m) (by omega) inv
      refine ⟨cm', ?_, by rw [show s + (n + 1) = s + 1 + n by omega]; exact inv'⟩
      rw [if_pos hgt, hmo, double_to_uint16_natCast m hm]
      simpa using e
    · have inv : ScanInv outs (s + 1) cm := by
        refine ⟨by omega, h2, ?_, h4⟩
        intro k hk
        rcases Nat.lt_succ_iff_lt_or_eq.1 hk with hk | rfl
        · exact h3 k hk
        · rw [← h2]; exact not_lt.1 hgt
      obtain ⟨cm', e, inv'⟩ := ih (s + 1) cm (by omega) inv
      refine ⟨cm', ?_, by rw [show s + (n + 1) = s + 1 + n by omega]; exact inv'⟩
      rw [if_neg hgt]
      simpa using e

theorem classify_scan_spec (outs : List ℚ)
    (hu : ∀ k, k < NUM_OUTPUT_UNITS → ∃ n : Nat, n < 65536 ∧ outs.getD k 0 = (n : ℚ)) :
    ∃ c, classify_scan outs = some c ∧ c < NUM_OUTPUT_UNITS ∧
      (∀ k, k < NUM_OUTPUT_UNITS → outs.getD k 0 ≤ outs.getD c 0) ∧
      ∀ k, k < c → outs.getD k 0 < outs.getD c 0 := by
  obtain ⟨m, hm, hmo⟩ := hu 0 (by decide)
  have inv : ScanInv outs 1 (0, m) := by
    refine ⟨by simp, hmo.symm, ?_, ?_⟩
    · intro k hk
      have : k = 0 := by omega
      subst this
      exact le_refl _
    · intro k hk
      exact absurd hk (by simp)
  obtain ⟨cm', e, h1, _, h3, h4⟩ :=
    classify_scan_loop outs NUM_OUTPUT_UNITS hu (NUM_OUTPUT_UNITS - 1) 1 (0, m) (by decide) inv
  refine ⟨cm'.1, ?_, h1, h3, h4⟩
  unfold classify_scan
  rw [hmo, double_to_uint16_natCast m hm]
  simp only [Option.bind_eq_bind, Option.some_bind]
  rw [e]
  rfl

theorem output_layer_outputs_uint16 (nn_input : List Bool) (weights : Weights) (outs : List ℚ)
    (h : output_layer_outputs nn_input weights = some outs) :
    ∀ k, k < NUM_OUTPUT_UNITS → ∃ n : Nat, n < 65536 ∧ outs.getD k 0 = (n : ℚ) := by
  unfold output_layer_outputs at h
  simp only [Option.bind_eq_bind, Option.bind_eq_some] at h
  obtain ⟨hidden, _, h⟩ := h
  obtain ⟨hl, hi⟩ := mapM_some _ _ _ h
  intro k hk
  have hk' : k < (List.range NUM_OUTPUT_UNITS).length := by simpa using hk
  have := hi k
  rw [List.getElem?_eq_getElem hk', List.getElem_range] at this
  simp only [Option.some_bind] at this
  have hk2 : k < outs.length := by omega
  rw [List.getElem?_eq_getElem hk2] at this
  simp only [Option.map_eq_some'] at this
  obtain ⟨n, hn, e⟩ := this
  unfold output_layer_sum at hn
  simp only [Option.bind_eq_bind, Option.bind_eq_some] at hn
  obtain ⟨s, _, hs⟩ := hn
  refine ⟨n, double_to_uint16_lt _ _ hs, ?_⟩
  rw [List.getD_eq_getElem _ _ hk2]
  exact e.symm

theorem foldlM_fixed {α σ : Type} (f : σ → α → Option σ) :
    ∀ (xs : List α) (s : σ), (∀ a ∈ xs, f s a = some s) → xs.foldlM f s = some s := by
  intro xs
  induction xs with
  | nil => intro s _; rfl
  | cons a xs ih =>
    intro s h
    rw [List.foldlM_cons, h a (List.mem_cons_self _ _)]
    exact ih s fun b hb => h b (List.mem_cons_of_mem _ hb)

theorem hidden_layer_sum_blank (nn_input : List Bool) (weights : Weights) (i : Nat)
    (h : ∀ j, j < NUM_INPUT_UNITS → nn_input.getD j false = false) :
    hidden_layer_sum nn_input weights i = double_to_uint16 (weights 0 i NUM_INPUT_UNITS) := by
  unfold hidden_layer_sum
  rw [foldlM_fixed _ _ 0 (fun j hj => by rw [h j (List.mem_range.1 hj)]; rfl)]
  simp

theorem replicate_false_getD (n j : Nat) : (List.replicate n false).getD j false = false := by
  rw [List.getD_eq_getElem?_getD, List.getElem?_replicate]
  split_ifs <;> rfl

theorem double_to_uint16_half : double_to_uint16 (1 / 2) = some 0 := by
  unfold double_to_uint16
  have h : ⌊(1 / 2 : ℚ)⌋ = 0 := by
    rw [Int.floor_eq_iff]; norm_num
  rw [if_pos (by norm_num), h]
  rfl

theorem double_to_uint16_zero : double_to_uint16 0 = some 0 := by
  simpa using double_to_uint16_natCast 0 (by decide)

theorem output_layer_sum_bias (hidden : List ℚ) (weights : Weights) (i : Nat)
    (h : ∀ j, j < NUM_HIDDEN_UNITS → weights 1 i j * hidden.getD j 0 = 0) :
    output_layer_sum hidden weights i = double_to_uint16 (weights 1 i NUM_HIDDEN_UNITS) := by
  unfold output_layer_sum
  rw [foldlM_fixed _ _ 0 (fun j hj => by
    rw [h j (List.mem_range.1 hj)]; simpa using double_to_uint16_zero)]
  simp

theorem range_ten : List.range 10 = [0, 1, 2, 3, 4, 5, 6, 7, 8, 9] := by decide

theorem hidden_layer_outputs_w_tie :
    hidden_layer_outputs (List.replicate 256 false) w_tie = some (List.replicate 10 0) := by
  unfold hidden_layer_outputs
  have : ∀ i, hidden_layer_sum (List.replicate 256 false) w_tie i = some 0 := by
    intro i
    rw [hidden_layer_sum_blank _ _ _ (fun j _ => replicate_false_getD 256 j)]
    simpa [w_tie] using double_to_uint16_zero
  simp only [this, NUM_HIDDEN_UNITS, range_ten]
  rfl

theorem output_layer_outputs_w_tie :
    output_layer_outputs (List.replicate 256 false) w_tie = some [1, 1, 1, 5, 1, 1, 1, 5, 1, 1] := by
  unfold output_layer_outputs
  rw [hidden_layer_outputs_w_tie]
  have h : ∀ i, output_layer_sum (List.replicate 10 0) w_tie i
      = double_to_uint16 (w_tie 1 i NUM_HIDDEN_UNITS) := by
    intro i
    apply output_layer_sum_bias
    intro j hj
    have : j ≠ NUM_HIDDEN_UNITS := by omega
    simp [w_tie, this]
  have h5 : double_to_uint16 5 = some 5 := by simpa using double_to_uint16_natCast 5 (by decide)
  have h1 : double_to_uint16 1 = some 1 := by simpa using double_to_uint16_natCast 1 (by decide)
  simp only [Option.bind_eq_bind, Option.some_bind, h, NUM_OUTPUT_UNITS, range_ten,
    List.mapM_cons, List.mapM_nil]
  simp [w_tie, h5, h1, NUM_HIDDEN_UNITS]

theorem hidden_layer_outputs_w_half :
    hidden_layer_outputs (List.replicate 256 false) w_half = some (List.replicate 10 0) := by
  unfold hidden_layer_outputs
  have hs : ∀ i, hidden_layer_sum (List.replicate 256 false) w_half i = some 0 := by
    intro i
    rw [hidden_layer_sum_blank _ _ _ (fun j _ => replicate_false_getD 256 j)]
    by_cases hi : i = 0
    · subst hi
      have hb : w_half 0 0 NUM_INPUT_UNITS = 1 / 2 := by simp [w_half, NUM_INPUT_UNITS]
      rw [hb]
      exact double_to_uint16_half
    · have hb : w_half 0 i NUM_INPUT_UNITS = 0 := by simp [w_half, hi]
      rw [hb]
      exact double_to_uint16_zero
  simp only [hs, NUM_HIDDEN_UNITS, range_ten]
  rfl

theorem hidden_weighted_sum_w_half :
    hidden_weighted_sum (List.replicate 256 false) (w_half 0) 0 = 1 / 2 := by
  unfold hidden_weighted_sum
  have hm : ((List.range NUM_INPUT_UNITS).map fun j =>
      (if (List.replicate 256 false).getD j false then (1 : ℚ) else 0) * w_half 0 0 j) =
      (List.range NUM_INPUT_UNITS).map fun _ => (0 : ℚ) := by
    apply List.map_congr_left
    intro j _
    rw [replicate_false_getD]
    simp
  have hz : ∀ n : Nat, ((List.range n).map fun _ => (0 : ℚ)).sum = 0 := by
    intro n; simp
  have hb : w_half 0 0 NUM_INPUT_UNITS = 1 / 2 := by simp [w_half, NUM_INPUT_UNITS]
  rw [hm, hz, hb, zero_add]

/-- Claim C3 fails on the code: with no feature set and all weights zero except the bias
of hidden unit 0, which is 1/2, the weighted sum of hidden unit 0 is 1/2, yet `classify`
stores 0 for it: the accumulator `sum` is a `uint16_t`, so every addition is truncated. -/
theorem classify_hidden_sum_truncated :
    (hidden_layer_outputs (List.replicate 256 false) w_half).map (fun h => h.getD 0 0)
        = some 0 ∧
      hidden_weighted_sum (List.replicate 256 false) (w_half 0) 0 = 1 / 2 := by
  refine ⟨?_, hidden_weighted_sum_w_half⟩
  rw [hidden_layer_outputs_w_half]
  rfl

/-! ## Bounding-box extractor: further properties -/

theorem read_map_iff (pm : PixelMap) (x y x' y' : Nat) :
    read_from_map (map_coordinates pm x y) x' y' = true ↔
      (x' = x ∧ y' = y) ∨ read_from_map pm x' y' = true := by
  by_cases h : x' = x ∧ y' = y
  · obtain ⟨rfl, rfl⟩ := h
    simp [read_map_same]
  · rw [read_map_other _ _ _ _ _ h]
    simp [h]

/-- A box that encloses the set cells of the screen and whose four sides are attained by set
cells is the box `find_boundaries` returns. -/
theorem find_boundaries_unique (pm : PixelMap) (b : Bounds)
    (hin : ∀ x y, x < SCREEN_WIDTH → y < SCREEN_HEIGHT → read_from_map pm x y = true →
      b.upper_bound ≤ y ∧ y ≤ b.lower_bound ∧ b.left_bound ≤ x ∧ x ≤ b.right_bound)
    (hu : ∃ x, x < SCREEN_WIDTH ∧ b.upper_bound < SCREEN_HEIGHT ∧
      read_from_map pm x b.upper_bound = true)
    (hl : ∃ x, x < SCREEN_WIDTH ∧ b.lower_bound < SCREEN_HEIGHT ∧
      read_from_map pm x b.lower_bound = true)
    (hlf : ∃ y, y < SCREEN_HEIGHT ∧ b.left_bound < SCREEN_WIDTH ∧
      read_from_map pm b.left_bound y = true)
    (hr : ∃ y, y < SCREEN_HEIGHT ∧ b.right_bound < SCREEN_WIDTH ∧
      read_from_map pm b.right_bound y = true) :
    find_boundaries pm = b := by
  obtain ⟨xu, hxu, hbu, ru⟩ := hu
  obtain ⟨xl, hxl, hbl, rl⟩ := hl
  obtain ⟨ylf, hylf, hblf, rlf⟩ := hlf
  obtain ⟨yr, hyr, hbr, rr⟩ := hr
  obtain ⟨fin, ⟨xu', hxu', hfu, ru'⟩, ⟨xl', hxl', hfl, rl'⟩, ⟨ylf', hylf', hflf, rlf'⟩,
      ⟨yr', hyr', hfr, rr'⟩⟩ :=
    find_boundaries_extremes pm ⟨xu, b.upper_bound, hxu, hbu, ru⟩
  have a1 := (fin _ _ hxu hbu ru).1
  have a2 := (hin _ _ hxu' hfu ru').1
  have b1 := (fin _ _ hxl hbl rl).2.1
  have b2 := (hin _ _ hxl' hfl rl').2.1
  have c1 := (fin _ _ hblf hylf rlf).2.2.1
  have c2 := (hin _ _ hflf hylf' rlf').2.2.1
  have d1 := (fin _ _ hbr hyr rr).2.2.2
  have d2 := (hin _ _ hfr hyr' rr').2.2.2
  generalize find_boundaries pm = f at a1 a2 b1 b2 c1 c2 d1 d2
  cases f
  cases b
  simp only at a1 a2 b1 b2 c1 c2 d1 d2
  simp only [Bounds.mk.injEq]
  omega

/-- Marking a pixel strictly inside the box of a bitmap does not change the box. -/
theorem find_boundaries_map_inside (pm : PixelMap) (x y : Nat)
    (h : ∃ x y, x < SCREEN_WIDTH ∧ y < SCREEN_HEIGHT ∧ read_from_map pm x y = true)
    (hx : (find_boundaries pm).left_bound < x ∧ x < (find_boundaries pm).right_bound)
    (hy : (find_boundaries pm).upper_bound < y ∧ y < (find_boundaries pm).lower_bound) :
    find_boundaries (map_coordinates pm x y) = find_boundaries pm := by
  obtain ⟨fin, ⟨xu, hxu, hfu, ru⟩, ⟨xl, hxl, hfl, rl⟩, ⟨ylf, hylf, hflf, rlf⟩,
      ⟨yr, hyr, hfr, rr⟩⟩ := find_boundaries_extremes pm h
  apply find_boundaries_unique
  · intro x' y' hx' hy' hread
    rcases (read_map_iff pm x y x' y').1 hread with ⟨rfl, rfl⟩ | hold
    · omega
    · exact fin x' y' hx' hy' hold
  · exact ⟨xu, hxu, hfu, (read_map_iff _ _ _ _ _).2 (Or.inr ru)⟩
  · exact ⟨xl, hxl, hfl, (read_map_iff _ _ _ _ _).2 (Or.inr rl)⟩
  · exact ⟨ylf, hylf, hflf, (read_map_iff _ _ _ _ _).2 (Or.inr rlf)⟩
  · exact ⟨yr, hyr, hfr, (read_map_iff _ _ _ _ _).2 (Or.inr rr)⟩

/-- On a bitmap with no set cell on the screen the scan keeps its initial values. -/
theorem find_boundaries_empty (pm : PixelMap)
    (h : ∀ x y, x < SCREEN_WIDTH → y < SCREEN_HEIGHT → read_from_map pm x y = false) :
    find_boundaries pm =
      { upper_bound := SCREEN_HEIGHT, lower_bound := 0, left_bound := SCREEN_WIDTH,
        right_bound := 0 } := by
  have hs := scan_cells_spec pm (all_cells SCREEN_WIDTH SCREEN_HEIGHT)
    ⟨SCREEN_HEIGHT, 0, SCREEN_WIDTH, 0⟩
  rw [← find_boundaries_eq_scan] at hs
  obtain ⟨_, _, h3, _, _, h6, _, _, h9, _, _, h12⟩ := hs
  have none_set : ∀ p ∈ all_cells SCREEN_WIDTH SCREEN_HEIGHT,
      ¬ read_from_map pm p.1 p.2 = true := by
    intro p hp
    obtain ⟨hpx, hpy⟩ := (mem_all_cells _ _ p.1 p.2).1 hp
    rw [h p.1 p.2 hpx hpy]
    simp
  have e1 : (find_boundaries pm).upper_bound = SCREEN_HEIGHT := by
    rcases h3 with e | ⟨p, hp, hr, _⟩
    · exact e
    · exact absurd hr (none_set p hp)
  have e2 : (find_boundaries pm).lower_bound = 0 := by
    rcases h6 with e | ⟨p, hp, hr, _⟩
    · exact e
    · exact absurd hr (none_set p hp)
  have e3 : (find_boundaries pm).left_bound = SCREEN_WIDTH := by
    rcases h9 with e | ⟨p, hp, hr, _⟩
    · exact e
    · exact absurd hr (none_set p hp)
  have e4 : (find_boundaries pm).right_bound = 0 := by
    rcases h12 with e | ⟨p, hp, hr, _⟩
    · exact e
    · exact absurd hr (none_set p hp)
  generalize find_boundaries pm = f at e1 e2 e3 e4
  cases f
  simp only at e1 e2 e3 e4
  simp only [Bounds.mk.injEq]
  exact ⟨e1, e2, e3, e4⟩

/-- The box of a bitmap with a set cell is a valid box of the screen. -/
theorem find_boundaries_valid (pm : PixelMap)
    (h : ∃ x y, x < SCREEN_WIDTH ∧ y < SCREEN_HEIGHT ∧ read_from_map pm x y = true) :
    (find_boundaries pm).upper_bound ≤ (find_boundaries pm).lower_bound ∧
      (find_boundaries pm).lower_bound < SCREEN_HEIGHT ∧
      (find_boundaries pm).left_bound ≤ (find_boundaries pm).right_bound ∧
      (find_boundaries pm).right_bound < SCREEN_WIDTH := by
  obtain ⟨fin, _, ⟨_, _, hfl, _⟩, _, ⟨_, _, hfr, _⟩⟩ := find_boundaries_extremes pm h
  obtain ⟨x0, y0, hx0, hy0, h0⟩ := h
  obtain ⟨a, b, c, d⟩ := fin x0 y0 hx0 hy0 h0
  exact ⟨le_trans a b, hfl, le_trans c d, hfr⟩

/-- Claim C11: for a bitmap with a set cell and a pixel `(x, y)` strictly inside the box
`find_boundaries` returns (`left < x < right`, `top < y < bottom`), `find_boundaries` after
`map_coordinates x y` returns the same box. -/
theorem find_boundaries_invariant_inside (pixel_map : PixelMap) (x y : Nat)
    (h : ∃ x y, x < SCREEN_WIDTH ∧ y < SCREEN_HEIGHT ∧ read_from_map pixel_map x y = true)
    (hx : (find_boundaries pixel_map).left_bound < x ∧
      x < (find_boundaries pixel_map).right_bound)
    (hy : (find_boundaries pixel_map).upper_bound < y ∧
      y < (find_boundaries pixel_map).lower_bound) :
    find_boundaries (map_coordinates pixel_map x y) = find_boundaries pixel_map :=
  find_boundaries_map_inside pixel_map x y h hx hy

theorem find_boundaries_two :
    find_boundaries pixel_map_two =
      { upper_bound := 10, lower_bound := 40, left_bound := 10, right_bound := 30 } := by
  apply find_boundaries_unique
  · intro x y _ _ hread
    rcases (read_map_iff _ _ _ _ _).1 hread with ⟨rfl, rfl⟩ | hold
    · simp
    · obtain ⟨rfl, rfl⟩ := (read_single 10 10 x y).1 hold
      simp
  · exact ⟨10, by decide, by decide, by decide⟩
  · exact ⟨30, by decide, by decide, by decide⟩
  · exact ⟨10, by decide, by decide, by decide⟩
  · exact ⟨40, by decide, by decide, by decide⟩

theorem find_boundaries_invariant_inside_witness :
    find_boundaries (map_coordinates pixel_map_two 20 25) = find_boundaries pixel_map_two :=
  find_boundaries_invariant_inside pixel_map_two 20 25
    ⟨10, 10, by decide, by decide, by decide⟩
    (by rw [find_boundaries_two]; decide) (by rw [find_boundaries_two]; decide)

/-- Claim C12: on a bitmap with no set cell `find_boundaries` returns the initial values of
its scan, top 320, bottom 0, left 240 and right 0, an inverted box. -/
theorem find_boundaries_empty_sentinel (pixel_map : PixelMap)
    (h : ∀ x y, x < SCREEN_WIDTH → y < SCREEN_HEIGHT → read_from_map pixel_map x y = false) :
    find_boundaries pixel_map =
        { upper_bound := 320, lower_bound := 0, left_bound := 240, right_bound := 0 } ∧
      (find_boundaries pixel_map).upper_bound > (find_boundaries pixel_map).lower_bound ∧
      (find_boundaries pixel_map).left_bound > (find_boundaries pixel_map).right_bound := by
  have e := find_boundaries_empty pixel_map h
  rw [e]
  exact ⟨rfl, by decide, by decide⟩

theorem find_boundaries_empty_sentinel_witness :
    find_boundaries pixel_map_init =
        { upper_bound := 320, lower_bound := 0, left_bound := 240, right_bound := 0 } ∧
      (find_boundaries pixel_map_init).upper_bound > (find_boundaries pixel_map_init).lower_bound ∧
      (find_boundaries pixel_map_init).left_bound > (find_boundaries pixel_map_init).right_bound :=
  find_boundaries_empty_sentinel pixel_map_init (fun x y _ _ => read_pixel_map_init x y)

/-- Claim C14: for a bitmap with at least one set cell the box `find_boundaries` returns
satisfies `0 ≤ top ≤ bottom < 320` and `0 ≤ left ≤ right < 240`. -/
theorem find_boundaries_box_valid (pixel_map : PixelMap)
    (h : ∃ x y, x < SCREEN_WIDTH ∧ y < SCREEN_HEIGHT ∧ read_from_map pixel_map x y = true) :
    (0 ≤ (find_boundaries pixel_map).upper_bound ∧
      (find_boundaries pixel_map).upper_bound ≤ (find_boundaries pixel_map).lower_bound ∧
      (find_boundaries pixel_map).lower_bound < 320) ∧
    (0 ≤ (find_boundaries pixel_map).left_bound ∧
      (find_boundaries pixel_map).left_bound ≤ (find_boundaries pixel_map).right_bound ∧
      (find_boundaries pixel_map).right_bound < 240) := by
  obtain ⟨a, b, c, d⟩ := find_boundaries_valid pixel_map h
  exact ⟨⟨Nat.zero_le _, a, b⟩, ⟨Nat.zero_le _, c, d⟩⟩

theorem find_boundaries_box_valid_witness :
    (0 ≤ (find_boundaries pixel_map_13_21).upper_bound ∧
      (find_boundaries pixel_map_13_21).upper_bound
        ≤ (find_boundaries pixel_map_13_21).lower_bound ∧
      (find_boundaries pixel_map_13_21).lower_bound < 320) ∧
    (0 ≤ (find_boundaries pixel_map_13_21).left_bound ∧
      (find_boundaries pixel_map_13_21).left_bound
        ≤ (find_boundaries pixel_map_13_21).right_bound ∧
      (find_boundaries pixel_map_13_21).right_bound < 240) :=
  find_boundaries_box_valid pixel_map_13_21 ⟨13, 21, by decide, by decide, by decide⟩

/-! ## Feature downsampler: no pixel is dropped -/

theorem floor_div16 (N : Nat) : ⌊(N : ℚ) / 16⌋ = ((N / 16 : Nat) : Int) := by
  have h := Rat.floor_natCast_div_natCast N 16
  simpa using h

theorem ceil_div16 (N : Nat) : ⌈(N : ℚ) / 16⌉ = (((N + 15) / 16 : Nat) : Int) := by
  rw [Int.ceil_eq_iff]
  have h1 : 16 * ((N + 15) / 16) ≤ N + 15 := Nat.mul_div_le _ _
  have h2 : N + 15 < 16 * ((N + 15) / 16) + 16 := by
    have := Nat.lt_div_mul_add (a := N + 15) (b := 16) (by decide)
    omega
  generalize (N + 15) / 16 = z at h1 h2
  constructor
  · have h3 : 16 * (z : ℚ) - 16 < (N : ℚ) := by
      have : 16 * z < N + 16 := by omega
      have : ((16 * z : Nat) : ℚ) < ((N + 16 : Nat) : ℚ) := by exact_mod_cast this
      push_cast at this
      linarith
    push_cast
    linarith
  · have h3 : (N : ℚ) ≤ 16 * (z : ℚ) := by
      have : N ≤ 16 * z := by omega
      exact_mod_cast this
    push_cast
    linarith

/-- The band test in whole numbers, for a box side `lo ≤ hi`. -/
theorem in_band_div (b lo hi i p : Nat) (h : lo ≤ hi) :
    in_band b ((((hi : Int) - (lo : Int) : Int) : ℚ) / 16) i p ↔
      b + i * (hi - lo) / 16 ≤ p ∧ p ≤ b + ((i + 1) * (hi - lo) + 15) / 16 := by
  unfold in_band
  have hd : ((((hi : Int) - (lo : Int) : Int) : ℚ)) = ((hi - lo : Nat) : ℚ) := by
    rw [Nat.cast_sub h]; push_cast; ring
  have h1 : (i : ℚ) * (((hi - lo : Nat) : ℚ) / 16) = ((i * (hi - lo) : Nat) : ℚ) / 16 := by
    push_cast; ring
  have h2 : ((i + 1 : Nat) : ℚ) * (((hi - lo : Nat) : ℚ) / 16)
      = (((i + 1) * (hi - lo) : Nat) : ℚ) / 16 := by
    push_cast; ring
  rw [hd, h1, h2, floor_div16, ceil_div16]
  constructor
  · rintro ⟨ha, hb⟩
    exact ⟨by exact_mod_cast ha, by exact_mod_cast hb⟩
  · rintro ⟨ha, hb⟩
    exact ⟨by exact_mod_cast ha, by exact_mod_cast hb⟩

/-- Every coordinate of a box side lies in the band of some grid index. -/
theorem band_cover (lo hi p : Nat) (hp : lo ≤ p ∧ p ≤ hi) :
    ∃ i, i < 16 ∧ in_band lo ((((hi : Int) - (lo : Int) : Int) : ℚ) / 16) i p := by
  have hle : lo ≤ hi := le_trans hp.1 hp.2
  by_cases hlast : p = hi
  · refine ⟨15, by decide, (in_band_div lo lo hi 15 p hle).2 ?_⟩
    subst hlast
    omega
  · have hD : 0 < hi - lo := by omega
    have hq1 : 16 * (p - lo) / (hi - lo) * (hi - lo) ≤ 16 * (p - lo) := Nat.div_mul_le_self _ _
    have hq2 : 16 * (p - lo) < (16 * (p - lo) / (hi - lo) + 1) * (hi - lo) :=
      (Nat.div_lt_iff_lt_mul hD).1 (Nat.lt_succ_self _)
    have hq3 : 16 * (p - lo) / (hi - lo) < 16 := by
      rw [Nat.div_lt_iff_lt_mul hD]
      omega
    refine ⟨16 * (p - lo) / (hi - lo), hq3, (in_band_div lo lo hi _ p hle).2 ?_⟩
    rw [Nat.add_mul, Nat.one_mul] at hq2 ⊢
    generalize 16 * (p - lo) / (hi - lo) * (hi - lo) = m at hq1 hq2 ⊢
    omega

theorem in_band_first (lo hi : Nat) (h : lo ≤ hi) :
    in_band lo ((((hi : Int) - (lo : Int) : Int) : ℚ) / 16) 0 lo := by
  rw [in_band_div lo lo hi 0 lo h]
  omega

theorem in_band_last (lo hi : Nat) (h : lo ≤ hi) :
    in_band lo ((((hi : Int) - (lo : Int) : Int) : ℚ) / 16) 15 hi := by
  rw [in_band_div lo lo hi 15 hi h]
  omega

theorem marks_of_pixel (pm : PixelMap) (u l lf r x y i j : Nat)
    (hx : lf ≤ x ∧ x ≤ r) (hy : u ≤ y ∧ y ≤ l) (hread : read_from_map pm x y = true)
    (hi : i < 16) (hj : j < 16)
    (hbi : in_band lf ((((r : Int) - (lf : Int) : Int) : ℚ) / 16) i x)
    (hbj : in_band u ((((l : Int) - (u : Int) : Int) : ℚ) / 16) j y) :
    marks pm u l lf r (16 * j + i) :=
  ⟨x, by rw [List.mem_range'_1]; omega, y, by rw [List.mem_range'_1]; omega, hread,
    i, List.mem_range.2 hi, hbi, j, List.mem_range.2 hj, hbj, rfl⟩

theorem marks_pixel (pm : PixelMap) (u l lf r k : Nat) (h : marks pm u l lf r k) :
    ∃ x y, (lf ≤ x ∧ x ≤ r) ∧ (u ≤ y ∧ y ≤ l) ∧ read_from_map pm x y = true := by
  obtain ⟨x, hx, y, hy, hread, _⟩ := h
  rw [List.mem_range'_1] at hx hy
  exact ⟨x, y, by omega, by omega, hread⟩

theorem getElem?_bool_false (v : List Bool) (k : Nat) (hk : k < v.length) :
    v[k]? = some false ↔ ¬ v[k]? = some true := by
  rw [List.getElem?_eq_getElem hk]
  cases v[k] <;> simp

/-- With an inverted box the loop over `x` has no iteration: the vector stays all false,
whatever the bitmap holds. -/
theorem create_nn_input_sentinel (pm : PixelMap) :
    create_nn_input true pm 320 0 240 0 = some (List.replicate 256 false) := rfl

/-- Claim C17: for a valid box, every lit pixel `(x, y)` of the box lies in the band of some
column `i` and of some row `j` below 16, so `create_nn_input` sets entry `16*j+i` for it;
hence the feature vector is all false exactly when the box holds no lit pixel. -/
theorem create_nn_input_drops_no_pixel (pixel_map : PixelMap)
    (upper_bound lower_bound left_bound right_bound : Nat)
    (hu : upper_bound ≤ lower_bound) (hl : lower_bound < SCREEN_HEIGHT)
    (hlf : left_bound ≤ right_bound) (hr : right_bound < SCREEN_WIDTH) :
    ∃ nn_input,
      create_nn_input true pixel_map upper_bound lower_bound left_bound right_bound
        = some nn_input ∧ nn_input.length = 256 ∧
      (∀ x y, left_bound ≤ x → x ≤ right_bound → upper_bound ≤ y → y ≤ lower_bound →
        read_from_map pixel_map x y = true →
        ∃ i j, i < 16 ∧ j < 16 ∧
          in_band left_bound ((((right_bound : Int) - (left_bound : Int) : Int) : ℚ) / 16) i x ∧
          in_band upper_bound ((((lower_bound : Int) - (upper_bound : Int) : Int) : ℚ) / 16) j y ∧
          nn_input[16 * j + i]? = some true) ∧
      ((∀ k, k < 256 → nn_input[k]? = some false) ↔
        ∀ x y, left_bound ≤ x → x ≤ right_bound → upper_bound ≤ y → y ≤ lower_bound →
          read_from_map pixel_map x y = false) := by
  obtain ⟨v, hv, hlen, hiff⟩ :=
    create_nn_input_entry pixel_map upper_bound lower_bound left_bound right_bound
  have hset : ∀ x y, left_bound ≤ x → x ≤ right_bound → upper_bound ≤ y → y ≤ lower_bound →
      read_from_map pixel_map x y = true →
      ∃ i j, i < 16 ∧ j < 16 ∧
        in_band left_bound ((((right_bound : Int) - (left_bound : Int) : Int) : ℚ) / 16) i x ∧
        in_band upper_bound ((((lower_bound : Int) - (upper_bound : Int) : Int) : ℚ) / 16) j y ∧
        v[16 * j + i]? = some true := by
    intro x y hx1 hx2 hy1 hy2 hread
    obtain ⟨i, hi, hbi⟩ := band_cover left_bound right_bound x ⟨hx1, hx2⟩
    obtain ⟨j, hj, hbj⟩ := band_cover upper_bound lower_bound y ⟨hy1, hy2⟩
    exact ⟨i, j, hi, hj, hbi, hbj, (hiff (16 * j + i) (by omega)).2
      (marks_of_pixel pixel_map _ _ _ _ x y i j ⟨hx1, hx2⟩ ⟨hy1, hy2⟩ hread hi hj hbi hbj)⟩
  refine ⟨v, hv, hlen, hset, ?_, ?_⟩
  · intro hall x y hx1 hx2 hy1 hy2
    by_contra hne
    have hread : read_from_map pixel_map x y = true := by simpa using hne
    obtain ⟨i, j, hi, hj, _, _, htrue⟩ := hset x y hx1 hx2 hy1 hy2 hread
    rw [hall (16 * j + i) (by omega)] at htrue
    exact absurd htrue (by simp)
  · intro hnone k hk
    rw [getElem?_bool_false v k (by omega), hiff k hk]
    intro hm
    obtain ⟨x, y, hx, hy, hread⟩ := marks_pixel _ _ _ _ _ _ hm
    rw [hnone x y hx.1 hx.2 hy.1 hy.2] at hread
    exact absurd hread (by simp)

theorem create_nn_input_drops_no_pixel_witness :
    ∃ nn_input,
      create_nn_input true pixel_map_13_21 20 52 10 42 = some nn_input ∧
      nn_input.length = 256 ∧
      (∀ x y, 10 ≤ x → x ≤ 42 → 20 ≤ y → y ≤ 52 →
        read_from_map pixel_map_13_21 x y = true →
        ∃ i j, i < 16 ∧ j < 16 ∧
          in_band 10 (((((42 : Nat) : Int) - ((10 : Nat) : Int) : Int) : ℚ) / 16) i x ∧
          in_band 20 (((((52 : Nat) : Int) - ((20 : Nat) : Int) : Int) : ℚ) / 16) j y ∧
          nn_input[16 * j + i]? = some true) ∧
      ((∀ k, k < 256 → nn_input[k]? = some false) ↔
        ∀ x y, 10 ≤ x → x ≤ 42 → 20 ≤ y → y ≤ 52 →
          read_from_map pixel_map_13_21 x y = false) :=
  create_nn_input_drops_no_pixel pixel_map_13_21 20 52 10 42
    (by decide) (by decide) (by decide) (by decide)

/-- Claim C16: for a bitmap with at least one set cell, the feature vector `create_nn_input`
makes from the box `find_boundaries` returns has a true entry in grid row 0, in grid
row 15, in grid column 0 and in grid column 15. -/
theorem main_nn_input_touches_edges (pixel_map : PixelMap)
    (h : ∃ x y, x < SCREEN_WIDTH ∧ y < SCREEN_HEIGHT ∧ read_from_map pixel_map x y = true) :
    ∃ nn_input, main_nn_input true pixel_map = some nn_input ∧ nn_input.length = 256 ∧
      (∃ i, i < 16 ∧ nn_input[16 * 0 + i]? = some true) ∧
      (∃ i, i < 16 ∧ nn_input[16 * 15 + i]? = some true) ∧
      (∃ j, j < 16 ∧ nn_input[16 * j + 0]? = some true) ∧
      (∃ j, j < 16 ∧ nn_input[16 * j + 15]? = some true) := by
  obtain ⟨fin, ⟨xu, hxu, hfu, ru⟩, ⟨xl, hxl, hfl, rl⟩, ⟨ylf, hylf, hflf, rlf⟩,
      ⟨yr, hyr, hfr, rr⟩⟩ := find_boundaries_extremes pixel_map h
  obtain ⟨hv1, _, hv3, _⟩ := find_boundaries_valid pixel_map h
  unfold main_nn_input
  generalize find_boundaries pixel_map = b at *
  obtain ⟨v, hv, hlen, hiff⟩ :=
    create_nn_input_entry pixel_map b.upper_bound b.lower_bound b.left_bound b.right_bound
  have bu := fin _ _ hxu hfu ru
  have bl := fin _ _ hxl hfl rl
  have blf := fin _ _ hflf hylf rlf
  have br := fin _ _ hfr hyr rr
  refine ⟨v, hv, hlen, ?_, ?_, ?_, ?_⟩
  · obtain ⟨i, hi, hbi⟩ := band_cover b.left_bound b.right_bound xu ⟨bu.2.2.1, bu.2.2.2⟩
    exact ⟨i, hi, (hiff _ (by omega)).2 (marks_of_pixel pixel_map _ _ _ _ xu b.upper_bound i 0
      ⟨bu.2.2.1, bu.2.2.2⟩ ⟨le_refl _, hv1⟩ ru hi (by decide) hbi (in_band_first _ _ hv1))⟩
  · obtain ⟨i, hi, hbi⟩ := band_cover b.left_bound b.right_bound xl ⟨bl.2.2.1, bl.2.2.2⟩
    exact ⟨i, hi, (hiff _ (by omega)).2 (marks_of_pixel pixel_map _ _ _ _ xl b.lower_bound i 15
      ⟨bl.2.2.1, bl.2.2.2⟩ ⟨hv1, le_refl _⟩ rl hi (by decide) hbi (in_band_last _ _ hv1))⟩
  · obtain ⟨j, hj, hbj⟩ := band_cover b.upper_bound b.lower_bound ylf ⟨blf.1, blf.2.1⟩
    exact ⟨j, hj, (hiff _ (by omega)).2 (marks_of_pixel pixel_map _ _ _ _ b.left_bound ylf 0 j
      ⟨le_refl _, hv3⟩ ⟨blf.1, blf.2.1⟩ rlf (by decide) hj (in_band_first _ _ hv3) hbj)⟩
  · obtain ⟨j, hj, hbj⟩ := band_cover b.upper_bound b.lower_bound yr ⟨br.1, br.2.1⟩
    exact ⟨j, hj, (hiff _ (by omega)).2 (marks_of_pixel pixel_map _ _ _ _ b.right_bound yr 15 j
      ⟨hv3, le_refl _⟩ ⟨br.1, br.2.1⟩ rr (by decide) hj (in_band_last _ _ hv3) hbj)⟩

theorem main_nn_input_touches_edges_witness :
    ∃ nn_input, main_nn_input true pixel_map_two = some nn_input ∧ nn_input.length = 256 ∧
      (∃ i, i < 16 ∧ nn_input[16 * 0 + i]? = some true) ∧
      (∃ i, i < 16 ∧ nn_input[16 * 15 + i]? = some true) ∧
      (∃ j, j < 16 ∧ nn_input[16 * j + 0]? = some true) ∧
      (∃ j, j < 16 ∧ nn_input[16 * j + 15]? = some true) :=
  main_nn_input_touches_edges pixel_map_two ⟨10, 10, by decide, by decide, by decide⟩

/-- Claim C19: on a bitmap with no set cell, `find_boundaries` returns the box
(320, 0, 240, 0), and `create_nn_input` on that box, as `main` calls it, returns the
vector of 256 false entries; the loop over `x` from 240 to 0 has no iteration, so the
result is the same for every content of the bitmap: no cell is read. -/
theorem main_nn_input_empty_bitmap (pixel_map : PixelMap)
    (h : ∀ x y, x < SCREEN_WIDTH → y < SCREEN_HEIGHT → read_from_map pixel_map x y = false) :
    find_boundaries pixel_map =
        { upper_bound := 320, lower_bound := 0, left_bound := 240, right_bound := 0 } ∧
      main_nn_input true pixel_map = some (List.replicate 256 false) ∧
      List.range' 240 (0 + 1 - 240) = [] ∧
      ∀ other : PixelMap,
        create_nn_input true other 320 0 240 0 = some (List.replicate 256 false) := by
  have e := find_boundaries_empty pixel_map h
  refine ⟨e, ?_, rfl, create_nn_input_sentinel⟩
  unfold main_nn_input
  rw [e]
  exact create_nn_input_sentinel pixel_map

theorem main_nn_input_empty_bitmap_witness :
    find_boundaries pixel_map_init =
        { upper_bound := 320, lower_bound := 0, left_bound := 240, right_bound := 0 } ∧
      main_nn_input true pixel_map_init = some (List.replicate 256 false) ∧
      List.range' 240 (0 + 1 - 240) = [] ∧
      ∀ other : PixelMap,
        create_nn_input true other 320 0 240 0 = some (List.replicate 256 false) :=
  main_nn_input_empty_bitmap pixel_map_init (fun x y _ _ => read_pixel_map_init x y)

/-! ## Inference engine: further properties -/

theorem mapM_eq_some_map {α β : Type} (f : α → Option β) (g : α → β) :
    ∀ xs : List α, (∀ x ∈ xs, f x = some (g x)) → xs.mapM f = some (xs.map g) := by
  intro xs
  induction xs with
  | nil => intro _; rfl
  | cons x xs ih =>
    intro h
    rw [List.mapM_cons, h x (List.mem_cons_self _ _),
      ih fun y hy => h y (List.mem_cons_of_mem _ hy)]
    rfl

theorem getD_map_range (n i : Nat) (g : Nat → ℚ) (h : i < n) :
    ((List.range n).map g).getD i 0 = g i := by
  have hl : i < ((List.range n).map g).length := by
    rw [List.length_map, List.length_range]; exact h
  rw [List.getD_eq_getElem _ _ hl, List.getElem_map, List.getElem_range]

/-- The result of `classify` is the result of the scan on the stored output sums. -/
theorem classify_eq_some (nn_input : List Bool) (weights : Weights) (c : Nat)
    (h : classify nn_input weights = some c) :
    ∃ outs, output_layer_outputs nn_input weights = some outs ∧ classify_scan outs = some c := by
  unfold classify at h
  simp only [Option.bind_eq_bind, Option.bind_eq_some] at h
  exact h

theorem classify_lt (nn_input : List Bool) (weights : Weights) :
    (∀ c, classify nn_input weights = some c → c < NUM_OUTPUT_UNITS) ∧
      ∀ outs, output_layer_outputs nn_input weights = some outs →
        ∃ c, classify nn_input weights = some c ∧ c < NUM_OUTPUT_UNITS := by
  constructor
  · intro c h
    obtain ⟨outs, ho, hs⟩ := classify_eq_some nn_input weights c h
    obtain ⟨c', hc', hlt, _⟩ := classify_scan_spec outs (output_layer_outputs_uint16 _ _ _ ho)
    rw [hs] at hc'
    cases hc'
    exact hlt
  · intro outs ho
    obtain ⟨c, hc, hlt, _⟩ := classify_scan_spec outs (output_layer_outputs_uint16 _ _ _ ho)
    refine ⟨c, ?_, hlt⟩
    unfold classify
    rw [ho]
    exact hc

theorem double_to_uint16_one : double_to_uint16 1 = some 1 := by
  simpa using double_to_uint16_natCast 1 (by decide)

/-- With all hidden weights and biases zero, every hidden sum is zero, whatever the
features. -/
theorem hidden_layer_sum_zero (nn_input : List Bool) (weights : Weights) (i : Nat)
    (h : ∀ j, weights 0 i j = 0) : hidden_layer_sum nn_input weights i = some 0 := by
  unfold hidden_layer_sum
  rw [foldlM_fixed _ _ 0 (fun j _ => by
    rw [h j]
    split_ifs
    · simpa using double_to_uint16_zero
    · rfl)]
  rw [h]
  simpa using double_to_uint16_zero

theorem output_layer_outputs_w_bias (nn_input : List Bool) (k : Nat) :
    output_layer_outputs nn_input (w_bias k) =
      some ((List.range NUM_OUTPUT_UNITS).map fun i => if i = k then (1 : ℚ) else 0) := by
  have hh : hidden_layer_outputs nn_input (w_bias k) =
      some ((List.range NUM_HIDDEN_UNITS).map fun _ => (0 : ℚ)) := by
    unfold hidden_layer_outputs
    apply mapM_eq_some_map
    intro i _
    rw [hidden_layer_sum_zero nn_input (w_bias k) i (fun j => by simp [w_bias])]
    simp
  unfold output_layer_outputs
  rw [hh]
  simp only [Option.bind_eq_bind, Option.some_bind]
  apply mapM_eq_some_map
  intro i _
  rw [output_layer_sum_bias _ _ _ (fun j hj => by
    have hne : j ≠ NUM_HIDDEN_UNITS := by omega
    simp [w_bias, hne])]
  by_cases hik : i = k
  · have hb : w_bias k 1 i NUM_HIDDEN_UNITS = 1 := by simp [w_bias, hik]
    rw [hb, double_to_uint16_one]
    simp [hik]
  · have hb : w_bias k 1 i NUM_HIDDEN_UNITS = 0 := by simp [w_bias, hik]
    rw [hb, double_to_uint16_zero]
    simp [hik]

theorem classify_w_bias (nn_input : List Bool) (k : Nat) (hk : k < NUM_OUTPUT_UNITS) :
    classify nn_input (w_bias k) = some k := by
  have ho := output_layer_outputs_w_bias nn_input k
  obtain ⟨c, hc, hlt, hmax, _⟩ := classify_scan_spec _ (output_layer_outputs_uint16 _ _ _ ho)
  have h1 := hmax k hk
  rw [getD_map_range _ _ _ hk, getD_map_range _ _ _ hlt] at h1
  have hck : c = k := by
    by_contra hne
    rw [if_pos rfl, if_neg hne] at h1
    exact absurd h1 (by norm_num)
  subst hck
  unfold classify
  rw [ho]
  exact hc

/-- Claim C13: for every feature vector and every output unit `k` below 10, with every
weight and bias of both layers 0 except the bias of output unit `k`, which is 1,
`classify` returns `k`. -/
theorem classify_single_bias (nn_input : List Bool) (k : Nat) (hk : k < 10) :
    classify nn_input (w_bias k) = some k :=
  classify_w_bias nn_input k hk

theorem classify_single_bias_witness :
    classify (List.replicate 256 true) (w_bias 3) = some 3 :=
  classify_single_bias (List.replicate 256 true) 3 (by decide)

/-! ## Inference engine: tables of natural numbers -/

/-- An accumulation of natural numbers into the `uint16_t sum` is exact as long as the
total stays below `2^16`. -/
theorem foldlM_add {α : Type} (f : Nat → α → Option Nat) (g : α → Nat) :
    ∀ (xs : List α) (s : Nat),
      (∀ s a, a ∈ xs → s + g a < 65536 → f s a = some (s + g a)) →
      s + (xs.map g).sum < 65536 → xs.foldlM f s = some (s + (xs.map g).sum) := by
  intro xs
  induction xs with
  | nil => intro s _ _; simp
  | cons a xs ih =>
    intro s hf hs
    rw [List.map_cons, List.sum_cons] at hs
    rw [List.foldlM_cons, hf s a (List.mem_cons_self _ _) (by omega)]
    have := ih (s + g a) (fun s b hb => hf s b (List.mem_cons_of_mem _ hb)) (by omega)
    rw [List.map_cons, List.sum_cons, ← Nat.add_assoc]
    exact this

theorem sum_cast {α : Type} (g : α → Nat) (h : α → ℚ) :
    ∀ xs : List α, (∀ a ∈ xs, ((g a : Nat) : ℚ) = h a) →
      (((xs.map g).sum : Nat) : ℚ) = (xs.map h).sum := by
  intro xs
  induction xs with
  | nil => intro _; simp
  | cons a xs ih =>
    intro hg
    rw [List.map_cons, List.sum_cons, List.map_cons, List.sum_cons, Nat.cast_add,
      hg a (List.mem_cons_self _ _), ih fun b hb => hg b (List.mem_cons_of_mem _ hb)]

theorem double_to_uint16_add (s n : Nat) (h : s + n < 65536) :
    double_to_uint16 ((s : ℚ) + (n : ℚ)) = some (s + n) := by
  rw [← Nat.cast_add]
  exact double_to_uint16_natCast (s + n) h

theorem hidden_weighted_sum_cast (nn_input : List Bool) (W : Nat → Nat → Nat → Nat) (i : Nat) :
    hidden_weighted_sum nn_input (fun i j => (W 0 i j : ℚ)) i = (hidden_nat nn_input W i : ℚ) := by
  unfold hidden_weighted_sum hidden_nat
  rw [Nat.cast_add, sum_cast _ (fun j => (if nn_input.getD j false then 1 else 0) * (W 0 i j : ℚ))]
  intro j _
  split_ifs <;> simp

theorem output_weighted_sum_cast (nn_input : List Bool) (W : Nat → Nat → Nat → Nat) (i : Nat) :
    output_weighted_sum nn_input (fun l i j => (W l i j : ℚ)) i
      = (output_nat nn_input W i : ℚ) := by
  unfold output_weighted_sum output_nat
  rw [Nat.cast_add, sum_cast _ (fun j =>
    hidden_weighted_sum nn_input (fun i j => (W 0 i j : ℚ)) j * (W 1 i j : ℚ))]
  intro j _
  rw [hidden_weighted_sum_cast, Nat.cast_mul, mul_comm]

theorem hidden_layer_sum_nat (nn_input : List Bool) (W : Nat → Nat → Nat → Nat) (i : Nat)
    (h : hidden_nat nn_input W i ≤ 65535) :
    hidden_layer_sum nn_input (fun l i j => (W l i j : ℚ)) i
      = some (hidden_nat nn_input W i) := by
  unfold hidden_nat at h
  unfold hidden_layer_sum
  rw [foldlM_add _ (fun j => if nn_input.getD j false then W 0 i j else 0) _ 0
    (fun s j _ hs => by
      dsimp only at hs ⊢
      by_cases hc : nn_input.getD j false = true
      · rw [if_pos hc] at hs
        rw [if_pos hc, if_pos hc]
        exact double_to_uint16_add s _ hs
      · rw [if_neg hc, if_neg hc, Nat.add_zero])
    (by omega)]
  simp only [Option.bind_eq_bind, Option.some_bind, Nat.zero_add]
  rw [double_to_uint16_add _ _ (by omega)]
  rfl

theorem hidden_layer_outputs_nat (nn_input : List Bool) (W : Nat → Nat → Nat → Nat)
    (h : ∀ i, i < NUM_HIDDEN_UNITS → hidden_nat nn_input W i ≤ 65535) :
    hidden_layer_outputs nn_input (fun l i j => (W l i j : ℚ)) =
      some ((List.range NUM_HIDDEN_UNITS).map fun i => (hidden_nat nn_input W i : ℚ)) := by
  unfold hidden_layer_outputs
  apply mapM_eq_some_map
  intro i hi
  rw [hidden_layer_sum_nat nn_input W i (h i (List.mem_range.1 hi))]
  rfl

theorem output_layer_sum_nat (nn_input : List Bool) (W : Nat → Nat → Nat → Nat) (i : Nat)
    (h : output_nat nn_input W i ≤ 65535) :
    output_layer_sum ((List.range NUM_HIDDEN_UNITS).map fun i => (hidden_nat nn_input W i : ℚ))
      (fun l i j => (W l i j : ℚ)) i = some (output_nat nn_input W i) := by
  unfold output_nat at h
  unfold output_layer_sum
  rw [foldlM_add _ (fun j => W 1 i j * hidden_nat nn_input W j) _ 0
    (fun s j hj hs => by
      dsimp only at hs ⊢
      rw [getD_map_range _ _ _ (List.mem_range.1 hj), ← Nat.cast_mul]
      exact double_to_uint16_add s _ hs)
    (by omega)]
  simp only [Option.bind_eq_bind, Option.some_bind, Nat.zero_add]
  rw [double_to_uint16_add _ _ (by omega)]
  rfl

theorem output_layer_outputs_nat (nn_input : List Bool) (W : Nat → Nat → Nat → Nat)
    (hh : ∀ i, i < NUM_HIDDEN_UNITS → hidden_nat nn_input W i ≤ 65535)
    (ho : ∀ i, i < NUM_OUTPUT_UNITS → output_nat nn_input W i ≤ 65535) :
    output_layer_outputs nn_input (fun l i j => (W l i j : ℚ)) =
      some ((List.range NUM_OUTPUT_UNITS).map fun i => (output_nat nn_input W i : ℚ)) := by
  unfold output_layer_outputs
  rw [hidden_layer_outputs_nat nn_input W hh]
  simp only [Option.bind_eq_bind, Option.some_bind]
  apply mapM_eq_some_map
  intro i hi
  rw [output_layer_sum_nat nn_input W i (ho i (List.mem_range.1 hi))]
  rfl

theorem classify_nat (nn_input : List Bool) (W : Nat → Nat → Nat → Nat)
    (hh : ∀ i, i < NUM_HIDDEN_UNITS → hidden_nat nn_input W i ≤ 65535)
    (ho : ∀ i, i < NUM_OUTPUT_UNITS → output_nat nn_input W i ≤ 65535) :
    ∃ c, classify nn_input (fun l i j => (W l i j : ℚ)) = some c ∧ c < NUM_OUTPUT_UNITS ∧
      (∀ k, k < NUM_OUTPUT_UNITS → output_nat nn_input W k ≤ output_nat nn_input W c) ∧
      ∀ k, k < c → output_nat nn_input W k < output_nat nn_input W c := by
  have hout := output_layer_outputs_nat nn_input W hh ho
  obtain ⟨c, hc, hlt, hmax, hfirst⟩ :=
    classify_scan_spec _ (output_layer_outputs_uint16 _ _ _ hout)
  refine ⟨c, ?_, hlt, ?_, ?_⟩
  · unfold classify
    rw [hout]
    exact hc
  · intro k hk
    have := hmax k hk
    rw [getD_map_range _ _ _ hk, getD_map_range _ _ _ hlt] at this
    exact_mod_cast this
  · intro k hk
    have := hfirst k hk
    rw [getD_map_range _ _ _ (by omega), getD_map_range _ _ _ hlt] at this
    exact_mod_cast this

/-- Claim C18: when every weight and bias of both tables is a natural number and every
exact hidden-unit and output-unit weighted sum is at most 65535, the `uint16_t`
accumulator of `classify` loses nothing: the stored output sums are the exact sums, and
`classify` returns the lowest index that maximises the exact output sum. -/
theorem classify_exact_on_naturals (nn_input : List Bool) (weights : Weights)
    (W : Nat → Nat → Nat → Nat) (hW : ∀ l i j, weights l i j = (W l i j : ℚ))
    (hh : ∀ i, i < NUM_HIDDEN_UNITS → hidden_weighted_sum nn_input (weights 0) i ≤ 65535)
    (ho : ∀ i, i < NUM_OUTPUT_UNITS → output_weighted_sum nn_input weights i ≤ 65535) :
    output_layer_outputs nn_input weights =
        some ((List.range NUM_OUTPUT_UNITS).map fun i => output_weighted_sum nn_input weights i) ∧
      ∃ c, classify nn_input weights = some c ∧ c < NUM_OUTPUT_UNITS ∧
        (∀ k, k < NUM_OUTPUT_UNITS →
          output_weighted_sum nn_input weights k ≤ output_weighted_sum nn_input weights c) ∧
        ∀ k, k < c →
          output_weighted_sum nn_input weights k < output_weighted_sum nn_input weights c := by
  obtain rfl : weights = fun l i j => (W l i j : ℚ) := by
    funext l i j; exact hW l i j
  have hh' : ∀ i, i < NUM_HIDDEN_UNITS → hidden_nat nn_input W i ≤ 65535 := by
    intro i hi
    have := hh i hi
    dsimp only at this
    rw [hidden_weighted_sum_cast] at this
    exact_mod_cast this
  have ho' : ∀ i, i < NUM_OUTPUT_UNITS → output_nat nn_input W i ≤ 65535 := by
    intro i hi
    have := ho i hi
    rw [output_weighted_sum_cast] at this
    exact_mod_cast this
  simp only [output_weighted_sum_cast]
  refine ⟨output_layer_outputs_nat nn_input W hh' ho', ?_⟩
  obtain ⟨c, hc, hlt, hmax, hfirst⟩ := classify_nat nn_input W hh' ho'
  exact ⟨c, hc, hlt, fun k hk => by exact_mod_cast hmax k hk,
    fun k hk => by exact_mod_cast hfirst k hk⟩

set_option maxRecDepth 100000 in
theorem hidden_nat_small (i : Nat) : hidden_nat (List.replicate 256 true) W_small i = 260 := by
  have hW0 : ∀ i j, W_small 0 i j = if j = 256 then 3 else if j = 0 then 2 else 1 :=
    fun _ _ => rfl
  unfold hidden_nat
  simp only [hW0, NUM_INPUT_UNITS]
  decide

theorem classify_exact_on_naturals_witness :
    output_layer_outputs (List.replicate 256 true) w_small =
        some ((List.range NUM_OUTPUT_UNITS).map fun i =>
          output_weighted_sum (List.replicate 256 true) w_small i) ∧
      ∃ c, classify (List.replicate 256 true) w_small = some c ∧ c < NUM_OUTPUT_UNITS ∧
        (∀ k, k < NUM_OUTPUT_UNITS →
          output_weighted_sum (List.replicate 256 true) w_small k
            ≤ output_weighted_sum (List.replicate 256 true) w_small c) ∧
        ∀ k, k < c →
          output_weighted_sum (List.replicate 256 true) w_small k
            < output_weighted_sum (List.replicate 256 true) w_small c :=
  classify_exact_on_naturals (List.replicate 256 true) w_small W_small (fun _ _ _ => rfl)
    (fun i _ => by
      show hidden_weighted_sum (List.replicate 256 true) (fun i j => (W_small 0 i j : ℚ)) i
        ≤ 65535
      rw [hidden_weighted_sum_cast, hidden_nat_small]
      norm_num)
    (fun i hi => by
      show output_weighted_sum (List.replicate 256 true) (fun l i j => (W_small l i j : ℚ)) i
        ≤ 65535
      rw [output_weighted_sum_cast]
      have : output_nat (List.replicate 256 true) W_small i ≤ 65535 := by
        unfold output_nat
        simp only [hidden_nat_small, NUM_HIDDEN_UNITS, range_ten]
        simp only [W_small, NUM_HIDDEN_UNITS, NUM_OUTPUT_UNITS] at hi ⊢
        simp
        omega
      exact_mod_cast this)

/-! ## The capture step of `main` -/

theorem main_capture_coordinates_eq (raw_x raw_y : Nat) (hx : raw_x ≤ SCREEN_WIDTH)
    (hy : raw_y ≤ SCREEN_HEIGHT) :
    main_capture_coordinates raw_x raw_y = (SCREEN_WIDTH - raw_x, SCREEN_HEIGHT - raw_y) := by
  unfold main_capture_coordinates
  unfold SCREEN_WIDTH SCREEN_HEIGHT at *
  ext
  · simp only; omega
  · simp only; omega

/-- Claim C20 fails on the code at the raw reading (0, 0): the capture step passes
`x = 240` and `y = 320` to `map_coordinates`, outside `0 ≤ x < 240` and `0 ≤ y < 320`; the
row index `y / 32 = 10` is outside `pixel_map[10][240]` and the write sets bit 0 of the
word at row 10, column 240.  For raw readings in
`[0, 240) × [0, 320)` the coordinates passed are `240 - raw_x` and `320 - raw_y`, which
range over `1 .. 240` and `1 .. 320`. -/
theorem main_capture_out_of_range :
    main_capture_coordinates 0 0 = (240, 320) ∧
      ¬ (main_capture_coordinates 0 0).1 < SCREEN_WIDTH ∧
      ¬ (main_capture_coordinates 0 0).2 < SCREEN_HEIGHT ∧
      ¬ (main_capture_coordinates 0 0).2 / 32 < SCREEN_HEIGHT / 32 ∧
      main_capture pixel_map_init 0 0 10 240 = 1 ∧
      ∀ raw_x raw_y, raw_x < 240 → raw_y < 320 →
        main_capture_coordinates raw_x raw_y = (240 - raw_x, 320 - raw_y) := by
  refine ⟨by decide, by decide, by decide, by decide, by decide, fun raw_x raw_y hx hy => ?_⟩
  exact main_capture_coordinates_eq raw_x raw_y (Nat.le_of_lt hx) (Nat.le_of_lt hy)

/-! ## Inference engine on an arbitrary `double` arithmetic: proofs -/

theorem assign_uint16_lt {D : Type} (P : DoubleOps D) (d : D) : assign_uint16 P d < 65536 :=
  Nat.mod_lt _ (by decide)

theorem classify_scan_on_loop (outs : List Nat) :
    ∀ (n s : Nat) (cm : Nat × Nat), ScanInvOn outs s cm →
      ScanInvOn outs (s + n) ((List.range' s n).foldl
        (fun (cm : Nat × Nat) i =>
          if outs.getD i 0 > cm.2 then (i, outs.getD i 0) else cm) cm) := by
  intro n
  induction n with
  | zero => intro s cm h; simpa using h
  | succ n ih =>
    intro s cm h
    obtain ⟨h1, h2, h3, h4⟩ := h
    rw [List.range'_succ, List.foldl_cons, show s + (n + 1) = s + 1 + n by omega]
    apply ih
    by_cases hgt : outs.getD s 0 > cm.2
    · rw [if_pos hgt]
      refine ⟨Nat.lt_succ_self s, rfl, ?_, ?_⟩
      · intro k hk
        show outs.getD k 0 ≤ outs.getD s 0
        rcases Nat.lt_succ_iff_lt_or_eq.1 hk with hk | rfl
        · have := h3 k hk
          omega
        · exact le_refl _
      · intro k hk
        show outs.getD k 0 < outs.getD s 0
        have := h3 k hk
        omega
    · rw [if_neg hgt]
      refine ⟨by omega, h2, ?_, h4⟩
      intro k hk
      rcases Nat.lt_succ_iff_lt_or_eq.1 hk with hk | rfl
      · exact h3 k hk
      · omega

/-- The scan returns the first unit that holds the largest of the stored sums. -/
theorem classify_scan_on_spec (outs : List Nat) :
    classify_scan_on outs < NUM_OUTPUT_UNITS ∧
      (∀ k, k < NUM_OUTPUT_UNITS → outs.getD k 0 ≤ outs.getD (classify_scan_on outs) 0) ∧
      ∀ k, k < classify_scan_on outs → outs.getD k 0 < outs.getD (classify_scan_on outs) 0 := by
  have inv : ScanInvOn outs 1 (0, outs.getD 0 0) := by
    refine ⟨Nat.zero_lt_one, rfl, ?_, ?_⟩
    · intro k hk
      have hk0 : k = 0 := by omega
      subst hk0
      exact le_refl _
    · intro k hk
      exact absurd hk (by simp)
  obtain ⟨h1, _, h3, h4⟩ := classify_scan_on_loop outs (NUM_OUTPUT_UNITS - 1) 1 _ inv
  exact ⟨h1, h3, h4⟩

theorem output_layer_outputs_on_length {D : Type} (P : DoubleOps D) (nn_input : List Bool)
    (weights : Nat → Nat → Nat → D) :
    (output_layer_outputs_on P nn_input weights).length = NUM_OUTPUT_UNITS := by
  unfold output_layer_outputs_on
  rw [List.length_map, List.length_range]

theorem output_layer_outputs_on_lt {D : Type} (P : DoubleOps D) (nn_input : List Bool)
    (weights : Nat → Nat → Nat → D) (k : Nat) :
    (output_layer_outputs_on P nn_input weights).getD k 0 < 65536 := by
  by_cases hk : k < (output_layer_outputs_on P nn_input weights).length
  · rw [List.getD_eq_getElem _ _ hk]
    unfold output_layer_outputs_on
    rw [List.getElem_map]
    exact assign_uint16_lt P _
  · rw [List.getD_eq_default _ _ (by omega)]
    decide

/-! ### Agreement with the exact model -/

theorem foldlM_foldl {α σ : Type} (f : σ → α → Option σ) (g : σ → α → σ)
    (h : ∀ s a t, f s a = some t → g s a = t) :
    ∀ (xs : List α) (s r : σ), xs.foldlM f s = some r → xs.foldl g s = r := by
  intro xs
  induction xs with
  | nil =>
    intro s r hr
    rw [List.foldlM_nil] at hr
    cases hr
    rfl
  | cons a xs ih =>
    intro s r hr
    rw [List.foldlM_cons] at hr
    simp only [Option.bind_eq_bind, Option.bind_eq_some] at hr
    obtain ⟨t, ht, hr⟩ := hr
    rw [List.foldl_cons, h s a t ht]
    exact ih t r hr

theorem mapM_map {α β : Type} (f : α → Option β) (g : α → β)
    (h : ∀ x y, f x = some y → g x = y) :
    ∀ (xs : List α) (ys : List β), xs.mapM f = some ys → ys = xs.map g := by
  intro xs
  induction xs with
  | nil =>
    intro ys hy
    rw [List.mapM_nil] at hy
    cases hy
    rfl
  | cons x xs ih =>
    intro ys hy
    rw [List.mapM_cons] at hy
    simp only [Option.pure_def, Option.bind_eq_bind, Option.bind_eq_some] at hy
    obtain ⟨y, hfy, ys', hys, e⟩ := hy
    simp only [Option.some.injEq] at e
    subst e
    rw [List.map_cons, h x y hfy, ih ys' hys]

theorem getD_map_cast (l : List Nat) (j : Nat) :
    (l.map fun (n : Nat) => (n : ℚ)).getD j 0 = ((l.getD j 0 : Nat) : ℚ) := by
  by_cases hj : j < l.length
  · rw [List.getD_eq_getElem _ _ (by rw [List.length_map]; exact hj),
      List.getD_eq_getElem _ _ hj, List.getElem_map]
  · rw [List.getD_eq_default _ _ (by rw [List.length_map]; omega),
      List.getD_eq_default _ _ (by omega)]
    simp

theorem assign_uint16_exact (d : ℚ) (t : Nat) (h : double_to_uint16 d = some t) :
    assign_uint16 exact_ops d = t := by
  have hlt := double_to_uint16_lt d t h
  show (double_to_uint16 d).getD 0 % 65536 = t
  rw [h]
  exact Nat.mod_eq_of_lt hlt

theorem hidden_layer_sum_on_exact (nn_input : List Bool) (weights : Weights) (i s : Nat)
    (h : hidden_layer_sum nn_input weights i = some s) :
    hidden_layer_sum_on exact_ops nn_input weights i = s := by
  unfold hidden_layer_sum at h
  simp only [Option.bind_eq_bind, Option.bind_eq_some] at h
  obtain ⟨s0, h0, h1⟩ := h
  unfold hidden_layer_sum_on
  rw [foldlM_foldl _ (fun (sum : Nat) j =>
    if nn_input.getD j false then
      assign_uint16 exact_ops (exact_ops.add (exact_ops.of_uint16 sum) (weights 0 i j))
    else sum) (fun s j t hs => by
      dsimp only at hs ⊢
      by_cases hc : nn_input.getD j false = true
      · rw [if_pos hc] at hs ⊢
        exact assign_uint16_exact _ t hs
      · rw [if_neg hc] at hs ⊢
        simpa using hs) _ 0 s0 h0]
  exact assign_uint16_exact _ s h1

theorem hidden_layer_outputs_on_exact (nn_input : List Bool) (weights : Weights)
    (hidden : List ℚ) (h : hidden_layer_outputs nn_input weights = some hidden) :
    hidden = (hidden_layer_outputs_on exact_ops nn_input weights).map fun (n : Nat) => (n : ℚ) := by
  unfold hidden_layer_outputs at h
  unfold hidden_layer_outputs_on
  rw [List.map_map]
  apply mapM_map _ _ _ _ _ h
  intro i y hy
  simp only [Option.map_eq_some'] at hy
  obtain ⟨n, hn, e⟩ := hy
  rw [← e]
  show ((hidden_layer_sum_on exact_ops nn_input weights i : Nat) : ℚ) = (n : ℚ)
  rw [hidden_layer_sum_on_exact nn_input weights i n hn]

theorem output_layer_sum_on_exact (hidden : List Nat) (weights : Weights) (i s : Nat)
    (h : output_layer_sum (hidden.map fun (n : Nat) => (n : ℚ)) weights i = some s) :
    output_layer_sum_on exact_ops hidden weights i = s := by
  unfold output_layer_sum at h
  simp only [Option.bind_eq_bind, Option.bind_eq_some] at h
  obtain ⟨s0, h0, h1⟩ := h
  unfold output_layer_sum_on
  rw [foldlM_foldl _ (fun (sum : Nat) j =>
    assign_uint16 exact_ops (exact_ops.add (exact_ops.of_uint16 sum)
      (exact_ops.mul (weights 1 i j) (exact_ops.of_uint16 (hidden.getD j 0)))))
    (fun s j t hs => by
      dsimp only at hs ⊢
      rw [getD_map_cast] at hs
      exact assign_uint16_exact _ t hs) _ 0 s0 h0]
  exact assign_uint16_exact _ s h1

theorem output_layer_outputs_on_exact (nn_input : List Bool) (weights : Weights)
    (outs : List ℚ) (h : output_layer_outputs nn_input weights = some outs) :
    outs = (output_layer_outputs_on exact_ops nn_input weights).map fun (n : Nat) => (n : ℚ) := by
  unfold output_layer_outputs at h
  simp only [Option.bind_eq_bind, Option.bind_eq_some] at h
  obtain ⟨hidden, hh, ho⟩ := h
  rw [hidden_layer_outputs_on_exact nn_input weights hidden hh] at ho
  unfold output_layer_outputs_on
  rw [List.map_map]
  apply mapM_map _ _ _ _ _ ho
  intro i y hy
  simp only [Option.map_eq_some'] at hy
  obtain ⟨n, hn, e⟩ := hy
  rw [← e]
  show ((output_layer_sum_on exact_ops _ weights i : Nat) : ℚ) = (n : ℚ)
  rw [output_layer_sum_on_exact _ weights i n hn]

/-- Wherever the exact model of `classify` is defined, `classify_on` on the exact
arithmetic returns the same index. -/
theorem classify_on_exact (nn_input : List Bool) (weights : Weights) (c : Nat)
    (h : classify nn_input weights = some c) : classify_on exact_ops nn_input weights = c := by
  obtain ⟨outs, ho, hs⟩ := classify_eq_some nn_input weights c h
  obtain ⟨c', hc', hlt, hmax, hfirst⟩ :=
    classify_scan_spec outs (output_layer_outputs_uint16 _ _ _ ho)
  rw [hs] at hc'
  cases hc'
  have e := output_layer_outputs_on_exact nn_input weights outs ho
  obtain ⟨hlt', hmax', hfirst'⟩ :=
    classify_scan_on_spec (output_layer_outputs_on exact_ops nn_input weights)
  unfold classify_on
  generalize classify_scan_on (output_layer_outputs_on exact_ops nn_input weights) = d at *
  rw [e] at hmax hfirst
  by_contra hne
  rcases Nat.lt_or_gt_of_ne hne with hlt2 | hlt2
  · have h1 := hfirst d hlt2
    have h2 := hmax' c hlt
    rw [getD_map_cast, getD_map_cast] at h1
    have h3 : (output_layer_outputs_on exact_ops nn_input weights).getD d 0
        < (output_layer_outputs_on exact_ops nn_input weights).getD c 0 := by exact_mod_cast h1
    omega
  · have h1 := hfirst' c hlt2
    have h2 := hmax d hlt'
    rw [getD_map_cast, getD_map_cast] at h2
    have h3 : (output_layer_outputs_on exact_ops nn_input weights).getD d 0
        ≤ (output_layer_outputs_on exact_ops nn_input weights).getD c 0 := by exact_mod_cast h2
    omega

theorem classify_w_tie : classify (List.replicate 256 false) w_tie = some 3 := by
  have ho := output_layer_outputs_w_tie
  obtain ⟨c, hc, hlt, hmax, hfirst⟩ :=
    classify_scan_spec _ (output_layer_outputs_uint16 _ _ _ ho)
  have h3 := hmax 3 (by decide)
  have hc3 : c = 3 := by
    by_contra hne
    have hc10 : c < 10 := hlt
    by_cases h7 : c = 7
    · subst h7
      have := hfirst 3 (by decide)
      norm_num at this
    · interval_cases c <;> first | omega | norm_num at h3
  subst hc3
  unfold classify
  rw [ho]
  exact hc

/-- Claim C4: for every feature vector, every pair of weight tables and every `double`
arithmetic, `classify` stores ten output sums and returns an index `c` below
`NUM_OUTPUT_UNITS` whose stored sum is at least the stored sum of every unit and
strictly greater than that of every unit of lower index; so of the units that share the
maximal sum it returns the one of lowest index. -/
theorem classify_returns_first_maximum {D : Type} (P : DoubleOps D) (nn_input : List Bool)
    (weights : Nat → Nat → Nat → D) :
    (output_layer_outputs_on P nn_input weights).length = NUM_OUTPUT_UNITS ∧
      classify_on P nn_input weights < NUM_OUTPUT_UNITS ∧
      (∀ k, k < NUM_OUTPUT_UNITS →
        (output_layer_outputs_on P nn_input weights).getD k 0
          ≤ (output_layer_outputs_on P nn_input weights).getD
              (classify_on P nn_input weights) 0) ∧
      (∀ k, k < classify_on P nn_input weights →
        (output_layer_outputs_on P nn_input weights).getD k 0
          < (output_layer_outputs_on P nn_input weights).getD
              (classify_on P nn_input weights) 0) ∧
      ∀ k, k < NUM_OUTPUT_UNITS →
        (output_layer_outputs_on P nn_input weights).getD k 0
          = (output_layer_outputs_on P nn_input weights).getD
              (classify_on P nn_input weights) 0 →
        classify_on P nn_input weights ≤ k := by
  obtain ⟨hlt, hmax, hfirst⟩ :=
    classify_scan_on_spec (output_layer_outputs_on P nn_input weights)
  refine ⟨output_layer_outputs_on_length P nn_input weights, hlt, hmax, hfirst, ?_⟩
  intro k _ hk
  by_contra hn
  exact absurd hk (ne_of_lt (hfirst k (by unfold classify_on at hn; omega)))

theorem classify_returns_first_maximum_witness :
    classify_on exact_ops (List.replicate 256 false) w_tie = 3 ∧
      (output_layer_outputs_on exact_ops (List.replicate 256 false) w_tie).length
        = NUM_OUTPUT_UNITS ∧
      ∀ k, k < NUM_OUTPUT_UNITS →
        (output_layer_outputs_on exact_ops (List.replicate 256 false) w_tie).getD k 0
          ≤ (output_layer_outputs_on exact_ops (List.replicate 256 false) w_tie).getD
              (classify_on exact_ops (List.replicate 256 false) w_tie) 0 :=
  ⟨classify_on_exact _ _ 3 classify_w_tie,
    (classify_returns_first_maximum exact_ops (List.replicate 256 false) w_tie).1,
    (classify_returns_first_maximum exact_ops (List.replicate 256 false) w_tie).2.2.1⟩

/-- Claim C15: for every feature vector, every pair of weight tables and every `double`
arithmetic, the integer `classify` returns lies in `0 .. NUM_OUTPUT_UNITS - 1`, that is
in `0 .. 9`. -/
theorem classify_result_in_range {D : Type} (P : DoubleOps D) (nn_input : List Bool)
    (weights : Nat → Nat → Nat → D) :
    0 ≤ classify_on P nn_input weights ∧ classify_on P nn_input weights < 10 :=
  ⟨Nat.zero_le _, (classify_scan_on_spec (output_layer_outputs_on P nn_input weights)).1⟩

set_option maxRecDepth 1000000 in
theorem classify_result_in_range_witness :
    classify_on int_ops (List.replicate 256 true) W_wild = 3 ∧
      0 ≤ classify_on int_ops (List.replicate 256 true) W_wild ∧
      classify_on int_ops (List.replicate 256 true) W_wild < 10 :=
  ⟨by decide, classify_result_in_range int_ops (List.replicate 256 true) W_wild⟩

end DigitClassifier
